import Mathlib

/-!
Shallow embedding of the download-orchestration core of
`src/downloader/yt_dlp_slave.py` (Video Downloader), together with proofs
settling the specification claims about it.

External collaborators (the yt-dlp backend, ffmpeg, the file system, the
interactive handler) are modelled as oracle parameters; the control flow,
arithmetic and string manipulation of the module itself are translated
directly from the source.
-/

set_option autoImplicit false

namespace YDS

/-! ### Python string helpers used by the module -/

/-- Python `str.isspace`-style whitespace as used by `str.strip()`
(restricted to the ASCII whitespace characters that can actually occur in
the title strings handled here). -/
def pySpace (c : Char) : Bool :=
  c = ' ' || c = '\t' || c = '\n' || c = '\r' || c = '\x0b' || c = '\x0c'

/-- Python `str.strip()`: remove leading and trailing whitespace. -/
def pyStrip (s : String) : String :=
  ⟨(s.data.dropWhile pySpace).reverse.dropWhile pySpace |>.reverse⟩

/-- Trailing-whitespace-only trim (the operation the spec text describes). -/
def rstrip (s : String) : String :=
  ⟨(s.data.reverse.dropWhile pySpace).reverse⟩

/-! ### `_short_filename` (yt_dlp_slave.py lines 40-50)

```python
def _short_filename(name, length):
    for i in range(len(name), -1, -1):
        output = name[:i].strip()
        if i < len(name):
            output += '…'
        output = sanitize_filename(output)
        if (len(output.encode(sys.getfilesystemencoding(), 'ignore'))
                < length):
            return output
    raise ValueError(...)
```

`sanitize_filename` (a yt-dlp library function) and the byte length in the
filesystem encoding are external; they are oracle parameters `san` and
`enc`.  Raising `ValueError` is modelled as `none`. -/

/-- The candidate string the loop body builds for prefix length `i`:
`sanitize_filename(name[:i].strip() + ('…' if i < len(name) else ''))`. -/
def shortCandidate (san : String → String) (name : String) (i : Nat) : String :=
  san (pyStrip (⟨name.data.take i⟩) ++ if i < name.data.length then "…" else "")

/-- The descending scan of `_short_filename`, from prefix length `i` down
to 0. -/
def shortFromI (san : String → String) (enc : String → Nat) (name : String)
    (budget : Nat) : Nat → Option String
  | 0 =>
    if enc (shortCandidate san name 0) < budget then
      some (shortCandidate san name 0)
    else none
  | j + 1 =>
    if enc (shortCandidate san name (j + 1)) < budget then
      some (shortCandidate san name (j + 1))
    else shortFromI san enc name budget j

/-- `_short_filename(name, length)` with sanitizer and encoded-byte-length
oracles. -/
def short_filename (san : String → String) (enc : String → Nat)
    (name : String) (budget : Nat) : Option String :=
  shortFromI san enc name budget name.data.length

/-- The candidate the SPEC text describes ("trimmed of trailing
whitespace"): trailing-only trim instead of Python's two-sided `strip()`.
Clearly named spec-side definition, used only to compare against the code. -/
def specShortCandidate (san : String → String) (name : String) (i : Nat) : String :=
  san (rstrip (⟨name.data.take i⟩) ++ if i < name.data.length then "…" else "")

/-- The shortener as the spec sentence describes it (descending scan using
the trailing-only trim). -/
def specShortFromI (san : String → String) (enc : String → Nat) (name : String)
    (budget : Nat) : Nat → Option String
  | 0 =>
    if enc (specShortCandidate san name 0) < budget then
      some (specShortCandidate san name 0)
    else none
  | j + 1 =>
    if enc (specShortCandidate san name (j + 1)) < budget then
      some (specShortCandidate san name (j + 1))
    else specShortFromI san enc name budget j

/-- Spec-described shortener, entry point. -/
def spec_short_filename (san : String → String) (enc : String → Nat)
    (name : String) (budget : Nat) : Option String :=
  specShortFromI san enc name budget name.data.length

/-! ### `_on_progress` (yt_dlp_slave.py lines 167-205)

Byte and fragment counts delivered by yt-dlp are non-negative counts, so
the optional fields are modelled as `Option ℕ`; the hook's own `-1`
sentinel arithmetic is over `ℤ`, and the progress fraction over `ℚ`. -/

structure ProgressTick where
  status : String
  filename : String
  downloaded_bytes : Option ℕ
  total_bytes : Option ℕ
  total_bytes_estimate : Option ℕ
  fragment_index : Option ℕ
  fragment_count : Option ℕ
  eta : Option ℤ
  speed : Option ℚ

/-- The arguments of one `self._handler.on_progress(...)` call. -/
structure ProgressReport where
  filename : String
  progress : ℚ
  bytes : ℤ
  bytes_total : ℤ
  eta : ℤ
  speed : ℤ

/-- The effective total-bytes field: `total_bytes`, falling back to
`total_bytes_estimate`. -/
def totalBytesOpt (d : ProgressTick) : Option ℕ :=
  match d.total_bytes with
  | some n => some n
  | none => d.total_bytes_estimate

/-- `YoutubeDLSlave._on_progress`; `none` means the hook returned without
calling `on_progress`. -/
def on_progress (d : ProgressTick) : Option ProgressReport :=
  if d.status ≠ "downloading" ∧ d.status ≠ "finished" then none
  else
    let bytes_ : ℤ := match d.downloaded_bytes with
      | none => -1
      | some n => n
    let bytes_total : ℤ := match d.total_bytes with
      | some n => n
      | none => match d.total_bytes_estimate with
        | some n => n
        | none => -1
    if d.status = "downloading" then
      let fragments : ℤ := match d.fragment_index with
        | none => -1
        | some n => n
      let fragments_total : ℤ := match d.fragment_count with
        | none => -1
        | some n => n
      let progress : ℚ :=
        if bytes_ ≥ 0 ∧ bytes_total ≥ 0 then
          if bytes_total > 0 then (bytes_ : ℚ) / (bytes_total : ℚ) else -1
        else if fragments ≥ 0 ∧ fragments_total ≥ 0 then
          if fragments_total > 0 then (fragments : ℚ) / (fragments_total : ℚ) else -1
        else -1
      let eta : ℤ := match d.eta with
        | none => -1
        | some e => e
      let speed : ℤ := match d.speed with
        | none => -1
        | some s => round s
      some ⟨d.filename, progress, bytes_, bytes_total, eta, speed⟩
    else
      some ⟨d.filename, -1, bytes_, bytes_total, -1, -1⟩

/-! ### `YoutubeDLSlave.error` (yt_dlp_slave.py lines 263-296)

The regex `\b[Ss]ign in\b|--username` is implemented over `List Char`
(`\w` restricted to ASCII alphanumerics and underscore, which is what the
backend's English error messages use); `'--video-password' in msg` and the
xattr message test are substring tests. -/

/-- Python regex `\w` (ASCII range). -/
def wordChar (c : Char) : Bool := c.isAlphanum || c = '_'

/-- Does `[Ss]ign in\b` match at the head of the list (including the
trailing word boundary)? -/
def matchSignInAt : List Char → Bool
  | c :: 'i' :: 'g' :: 'n' :: ' ' :: 'i' :: 'n' :: rest =>
    (c = 'S' || c = 's') &&
      (match rest with
       | [] => true
       | d :: _ => !wordChar d)
  | _ => false

/-- `re.search(r'\b[Ss]ign in\b', msg)`: try every position, requiring a
word boundary before the match (`prev` is the character before the current
position, `none` at the start of the string). -/
def searchSignIn (prev : Option Char) : List Char → Bool
  | [] => false
  | c :: rest =>
    ((match prev with
      | none => true
      | some p => !wordChar p) && matchSignInAt (c :: rest))
    || searchSignIn (some c) rest

/-- Substring test (`pat in s` for Python strings). -/
def containsSub (pat : List Char) : List Char → Bool
  | [] => pat.isEmpty
  | c :: rest => pat.isPrefixOf (c :: rest) || containsSub pat rest

/-- `re.search(r'\b[Ss]ign in\b|--username', msg)` as a Bool. -/
def signInRegex (msg : String) : Bool :=
  searchSignIn none msg.data || containsSub "--username".data msg.data

/-- `'--video-password' in msg`. -/
def videoPasswordTest (msg : String) : Bool :=
  containsSub "--video-password".data msg.data

/-- `'This filesystem doesn\'t support extended attributes.' in msg`. -/
def xattrTest (msg : String) : Bool :=
  containsSub "This filesystem doesn't support extended attributes.".data msg.data

/-- The fields of `self.ydl_opts` mutated by `error`. -/
structure JobOpts where
  username : Option String
  password : Option String
  videopassword : Option String
deriving DecidableEq

/-- The mutable state read and written by `YoutubeDLSlave.error`. -/
structure RetrySt where
  allow_authentication_request : Bool
  skip_authentication : Bool
  skipped_count : ℕ
  opts : JobOpts
deriving DecidableEq

/-- How one `error(msg)` call ends: plain return, `raise RetryException`,
or the fatal path (`on_error` + `sys.exit(1)`). -/
inductive ErrAction
  | ret
  | retry
  | fatal
deriving DecidableEq

/-- Result of one `error(msg)` call: the new state, how the call ended,
and which interactive prompts were issued during it. -/
structure ErrOut where
  st : RetrySt
  action : ErrAction
  prompted_login : Bool
  prompted_password : Bool
deriving DecidableEq

/-- `YoutubeDLSlave.error(msg)`.  `login` is the pair the handler's
`on_login_request()` would return during this call, `videopw` the result
of `on_password_request()`. -/
def error (st : RetrySt) (login : String × String) (videopw : String)
    (msg : String) : ErrOut :=
  if st.allow_authentication_request && signInRegex msg then
    if st.skip_authentication then
      ⟨{ st with skipped_count := st.skipped_count + 1 }, .ret, false, false⟩
    else
      let user := login.1
      let password := login.2
      if user = "" ∧ password = "" then
        ⟨{ st with skip_authentication := true,
                   skipped_count := st.skipped_count + 1 }, .ret, true, false⟩
      else
        ⟨{ st with opts := { st.opts with username := some user,
                                          password := some password },
                   allow_authentication_request := false }, .retry, true, false⟩
  else if st.allow_authentication_request && videoPasswordTest msg then
    if st.skip_authentication then
      ⟨{ st with skipped_count := st.skipped_count + 1 }, .ret, false, false⟩
    else
      if videopw = "" then
        ⟨{ st with skip_authentication := true,
                   skipped_count := st.skipped_count + 1 }, .ret, false, true⟩
      else
        ⟨{ st with opts := { st.opts with videopassword := some videopw },
                   allow_authentication_request := false }, .retry, false, true⟩
  else if xattrTest msg then
    ⟨st, .ret, false, false⟩
  else
    ⟨st, .fatal, false, false⟩

/-- An error line that triggers the authentication gate (either class). -/
def authLine (msg : String) : Bool := signInRegex msg || videoPasswordTest msg

/-- Fold a sequence of error lines (each with the prompt answers its call
would receive) through `error`, collecting the outcomes.  Used to state
session-long properties of the classifier. -/
def errorTrace (st : RetrySt) : List ((String × String) × String × String) →
    RetrySt × List ErrOut
  | [] => (st, [])
  | e :: rest =>
    let out := error st e.1 e.2.1 e.2.2
    let next := errorTrace out.st rest
    (next.1, out :: next.2)

/-! ### Playlist disambiguation (yt_dlp_slave.py lines 359-383)

`_load_playlist` is the probe oracle; the controller varies exactly the
`playlistend` and `noplaylist` entries of `ydl_opts` between calls, so a
probe invocation is modelled as a function of those two options.  `α` is
the opaque type of parsed info dicts. -/

/-- The `ydl_opts` entries the disambiguation block manipulates
(`none` = key absent). -/
structure PlOpts where
  playlistend : Option ℕ
  noplaylist : Option Bool
deriving DecidableEq

/-- Result of one `_load_playlist` call: parsed info dicts and the delta
of the skipped counter. -/
structure ProbeOut (α : Type) where
  infos : List α
  skipped : ℕ

/-- A probe's total: returned item count plus skipped count. -/
def probeTotal {α : Type} (p : ProbeOut α) : ℕ := p.infos.length + p.skipped

/-- What the disambiguation block produced: the final item list, whether
`on_playlist_request` was called, and the `_load_playlist` invocations it
made (in order, with the options in force for each). -/
structure DisambOut (α : Type) where
  info_playlist : List α
  asked : Bool
  calls : List PlOpts

/-- Lines 359-383 of `YoutubeDLSlave.__init__`: the two bounded probes,
the comparison, the optional interactive question and the final
enumeration.  `probe` is `_load_playlist` (as a function of the two
manipulated options), `on_playlist_request` the handler's answer. -/
def disambiguate {α : Type} (probe : PlOpts → ProbeOut α)
    (on_playlist_request : Bool) : DisambOut α :=
  let o1 : PlOpts := ⟨some 2, none⟩
  let tp := probe o1
  let o2 : PlOpts := ⟨some 2, some true⟩
  let runSecond := probeTotal tp > 1
  let np := if runSecond then probe o2 else tp
  let firstCalls := if runSecond then [o1, o2] else [o1]
  if probeTotal tp > probeTotal np then
    -- genuinely a playlist: ask the user
    let noplaylist := !on_playlist_request
    if !noplaylist then
      let o3 : PlOpts := ⟨none, some false⟩
      ⟨(probe o3).infos, true, firstCalls ++ [o3]⟩
    else
      ⟨np.infos, true, firstCalls⟩
  else if probeTotal tp > 1 then
    let o3 : PlOpts := ⟨none, none⟩
    ⟨(probe o3).infos, false, firstCalls ++ [o3]⟩
  else
    ⟨tp.infos, false, firstCalls⟩

/-! ### `_find_existing_download` (yt_dlp_slave.py lines 298-309) and the
existing-file short-circuit (lines 419-459)

The destination directory is modelled as the ordered list of entries the
glob would enumerate; `os.path.isfile` is the `is_regular_file` field. -/

/-- One directory entry as seen by `glob.iglob` / `os.path.isfile`. -/
structure DirEntry where
  name : String
  is_regular_file : Bool
deriving DecidableEq

/-- Index of the last `'.'` in the list, if any. -/
def lastDot : List Char → Option ℕ
  | [] => none
  | c :: rest =>
    match lastDot rest with
    | some k => some (k + 1)
    | none => if c = '.' then some 0 else none

/-- `os.path.splitext` on a basename: split at the last dot, except that
a dot preceded only by dots (leading-dot names like `.bashrc`) does not
start an extension. -/
def splitext (l : List Char) : List Char × List Char :=
  match lastDot l with
  | none => (l, [])
  | some d =>
    match (l.take d).any (fun c => c ≠ '.') with
    | true => (l.take d, l.drop d)
    | false => (l, [])

/-- Python `str.lower()` restricted to ASCII letters (the only characters
relevant to the `.mp3` comparison below). -/
def pyLower (s : String) : String :=
  ⟨s.data.map (fun c => if 'A' ≤ c ∧ c ≤ 'Z' then Char.ofNat (c.toNat + 32) else c)⟩

/-- Does the basename match the glob pattern
`glob.escape(output_title) + '.*'`?  The escaped part matches literally
and `*` matches any (possibly empty) character sequence, so this is a
prefix test for `output_title ++ "."`. -/
def globTitleDotStar (output_title : String) (name : String) : Bool :=
  (output_title ++ ".").data.isPrefixOf name.data

/-- The mode/extension test of `_find_existing_download`:
`mode == 'audio' and ext.lower() == '.mp3' or mode != 'audio' and
ext.lower() != '.mp3'`. -/
def extClassMatches (mode : String) (ext : String) : Bool :=
  (mode = "audio" && pyLower ext = ".mp3") ||
    (mode ≠ "audio" && pyLower ext ≠ ".mp3")

/-- `YoutubeDLSlave._find_existing_download`. -/
def find_existing_download (entries : List DirEntry) (output_title mode : String) :
    Option String :=
  entries.findSome? fun e =>
    if globTitleDotStar output_title e.name then
      let file_title : String := ⟨(splitext e.name.data).1⟩
      let file_ext : String := ⟨(splitext e.name.data).2⟩
      if file_title = output_title ∧ extClassMatches mode file_ext ∧
          e.is_regular_file then
        some e.name
      else none
    else none

/-- Externally observable actions of the per-item block
(yt_dlp_slave.py lines 418-459). -/
inductive ItemEvent
  | temp_dir_created
  | fetch_invoked
  | download_finished (filename : String)
deriving DecidableEq

/-- The per-item control flow around the existing-file check:
either short-circuit (report the found name, nothing else), or create the
temporary directory, run the fetch, and report `output_title` plus the
extension of the fetched file. -/
def handleItem (entries : List DirEntry) (output_title mode fetched_ext : String) :
    List ItemEvent :=
  match find_existing_download entries output_title mode with
  | some f => [.download_finished f]
  | none => [.temp_dir_created, .fetch_invoked,
             .download_finished (output_title ++ fetched_ext)]

/-- The claim's notion of a matching existing file: a regular directory
entry whose `splitext` title equals the sanitized title and whose
extension class matches the mode.  Clearly named claim-side definition,
compared against the code's glob-based test. -/
def claimExistingMatch (entries : List DirEntry) (output_title mode : String) : Bool :=
  entries.any fun e =>
    e.is_regular_file &&
      (⟨(splitext e.name.data).1⟩ : String) = output_title &&
      extClassMatches mode ⟨(splitext e.name.data).2⟩

/-- The amended notion of a matching existing file: as
`claimExistingMatch`, but additionally requiring a nonempty extension
(the entry's name is the sanitized title followed by a `'.'`). -/
def amendedExistingMatch (entries : List DirEntry) (output_title mode : String) : Bool :=
  entries.any fun e =>
    e.is_regular_file &&
      (⟨(splitext e.name.data).1⟩ : String) = output_title &&
      !(splitext e.name.data).2.isEmpty &&
      extClassMatches mode ⟨(splitext e.name.data).2⟩

/-! ### The WEBVTT blank-line repair (yt_dlp_slave.py lines 101-112)

```python
new_webvtt = re.sub(r'(?<=\n\n)'
                    r'([0-9.:]+ --> [0-9.:]+\n)'
                    r'\n'
                    r'(?: +\n)* *',
                    r'\1', webvtt)
```

A direct implementation of `re.sub` for this one pattern over `List Char`:
scan left to right, at each position with the two preceding characters of
the subject both `'\n'` (the lookbehind inspects the original text, also
across earlier replacements) try the body; on a match emit group 1 and
continue after the match, else emit the character and move on.  All parts
of the pattern are deterministic here (the character class excludes both
`' '` and `'\n'`, so greedy matching never backtracks). -/

/-- The character class `[0-9.:]`. -/
def tsChar (c : Char) : Bool := c.isDigit || c = '.' || c = ':'

/-- Length of the longest prefix satisfying `p` (greedy `+`/`*` munch). -/
def countLeading (p : Char → Bool) (l : List Char) : ℕ := (l.takeWhile p).length

/-- The literal `' --> '` between the two timestamp fields. -/
def arrowSep : List Char := [' ', '-', '-', '>', ' ']

/-- Number of characters consumed by `(?: +\n)* *`:  `acc` counts
completed ` +\n` repetitions, `sp` the current run of spaces. -/
def blanksAux (acc sp : ℕ) : List Char → ℕ
  | [] => acc + sp
  | c :: rest =>
    if c = ' ' then blanksAux acc (sp + 1) rest
    else if c = '\n' then
      if 1 ≤ sp then blanksAux (acc + sp + 1) 0 rest else acc
    else acc + sp

/-- Characters consumed by `(?: +\n)* *` at the head of the list. -/
def blanks (l : List Char) : ℕ := blanksAux 0 0 l

/-- Try the pattern body (everything except the lookbehind) at the head of
`l`.  On success, returns `(total, g1len)`: the full match length and the
length of group 1 (the timestamp line including its newline).  With
`n1` the greedy first `[0-9.:]+` munch and `n2` the second (after the
literal `' --> '`), the group is `n1 + 5 + n2 + 1` characters and the
match adds the broken empty line and the `(?: +\n)* *` tail. -/
def tryMatch (l : List Char) : Option (ℕ × ℕ) :=
  if countLeading tsChar l = 0 then none
  else if arrowSep.isPrefixOf (l.drop (countLeading tsChar l)) then
    if countLeading tsChar ((l.drop (countLeading tsChar l)).drop 5) = 0 then
      none
    else
      match ((l.drop (countLeading tsChar l)).drop 5).drop
          (countLeading tsChar ((l.drop (countLeading tsChar l)).drop 5)) with
      | '\n' :: '\n' :: l4 =>
        some (countLeading tsChar l + 5 +
            countLeading tsChar ((l.drop (countLeading tsChar l)).drop 5) + 1 +
            1 + blanks l4,
          countLeading tsChar l + 5 +
            countLeading tsChar ((l.drop (countLeading tsChar l)).drop 5) + 1)
      | _ => none
  else none

/-- Is the lookbehind `(?<=\n\n)` satisfied, given the two preceding
subject characters? -/
def enabledCtx (p2 p1 : Option Char) : Bool :=
  p2 = some '\n' && p1 = some '\n'

/-- The scanning loop of this `re.sub`.  `p2, p1` are the two characters
of the subject preceding the current position (for the lookbehind), and
`skip` counts subject characters still to pass over silently because they
belong to an already-replaced match. -/
def goC (p2 p1 : Option Char) (skip : ℕ) : List Char → List Char
  | [] => []
  | c :: rest =>
    match skip with
    | n + 1 => goC p1 (some c) n rest
    | 0 =>
      if enabledCtx p2 p1 then
        match tryMatch (c :: rest) with
        | some (total, g1len) =>
          (c :: rest).take g1len ++ goC p1 (some c) (total - 1) rest
        | none => c :: goC p1 (some c) 0 rest
      else c :: goC p1 (some c) 0 rest

/-- The blank-line collapse: `re.sub(pattern, r'\1', webvtt)`. -/
def collapse (l : List Char) : List Char := goC none none 0 l

/-- The collapse on strings. -/
def collapseStr (s : String) : String := ⟨collapse s.data⟩

/-- The scanning context after consuming the characters of `l`. -/
def ctxAfter (ctx : Option Char × Option Char) (l : List Char) :
    Option Char × Option Char :=
  l.foldl (fun p c => (p.2, some c)) ctx

/-- No two adjacent newlines in the stream `p1 :: l` (so the lookbehind is
never satisfied at positions 1, 2, … while scanning `l`). -/
def chainOk (p1 : Option Char) : List Char → Bool
  | [] => true
  | c :: rest => !(p1 = some '\n' && c = '\n') && chainOk (some c) rest

/-- Scan of `goC` that additionally checks, at every match, that the
character right after the matched region is not a further newline
(i.e. the collapsed blank-line group is not followed by another blank
line).  Inputs passing this check are the ones on which the repair is
idempotent. -/
def noProb (p2 p1 : Option Char) (skip : ℕ) : List Char → Bool
  | [] => true
  | c :: rest =>
    match skip with
    | n + 1 => noProb p1 (some c) n rest
    | 0 =>
      if enabledCtx p2 p1 then
        match tryMatch (c :: rest) with
        | some (total, _g1len) =>
          decide (((c :: rest).drop total).head? ≠ some '\n') &&
            noProb p1 (some c) (total - 1) rest
        | none => noProb p1 (some c) 0 rest
      else noProb p1 (some c) 0 rest

/-- Top-level single-blank-line check for a subject string. -/
def noProblem (l : List Char) : Bool := noProb none none 0 l

/-! ### `SubtitlesConverterPP.run` (yt_dlp_slave.py lines 61-115)

`dfxp2srt` (a yt-dlp library function that may raise), file contents, and
the ffmpeg invocation are oracles.  `__files_to_move` is modelled as a
total map. -/

/-- One requested subtitle track: its format tag and materialized file. -/
structure SubInfo where
  ext : String
  filepath : Option String
deriving DecidableEq

/-- Oracles for the subtitle pipeline: file contents, the internal
XML-timed-text converter (`none` = it raised), and whether
`run_ffmpeg(src, dst, ['-f', 'webvtt'])` succeeds. -/
structure SubEnv where
  readFile : String → String
  dfxp2srt : String → Option String
  ffmpegToVtt : String → String → Bool

/-- The pieces of `info` state threaded through `_convert_filepath`:
the `files_to_delete` list and the `__files_to_move` mapping. -/
structure ConvSt where
  files_to_delete : List String
  files_to_move : String → String

/-- `_convert_filepath(info, files_to_delete, filepath, new_ext, type_)`
(yt_dlp_slave.py lines 53-58). -/
def convertFilepath (st : ConvSt) (filepath new_ext type_ : String) :
    ConvSt × String :=
  let suff := "." ++ type_ ++ "." ++ new_ext
  let newPath := filepath ++ suff
  (⟨st.files_to_delete ++ [filepath],
    fun p => if p = newPath then st.files_to_move filepath ++ suff
             else st.files_to_move p⟩,
   newPath)

/-- The body of the per-track loop of `SubtitlesConverterPP.run`:
returns the updated delete/move state and the surviving converted track
(`none` when the track is skipped or dropped). -/
def processSub (env : SubEnv) (st : ConvSt) (sub : SubInfo) :
    ConvSt × Option SubInfo :=
  match sub.filepath with
  | none => (st, none)
  | some fp0 =>
    if fp0 = "" then (st, none)
    else
      let dfxpStep : Option (ConvSt × String) :=
        if sub.ext = "dfxp" ∨ sub.ext = "ttml" ∨ sub.ext = "tt" then
          match env.dfxp2srt (env.readFile fp0) with
          | none => none
          | some _data => some (convertFilepath st fp0 "srt" "conv")
        else some (st, fp0)
      match dfxpStep with
      | none =>
        ({ st with files_to_delete := st.files_to_delete ++ [fp0] }, none)
      | some (st1, fp1) =>
        let conv := convertFilepath st1 fp1 "vtt" "conv"
        let st2 := conv.1
        let newfp := conv.2
        if ! env.ffmpegToVtt fp1 newfp then
          ({ st2 with files_to_delete := st2.files_to_delete ++ [newfp] }, none)
        else
          let webvtt := env.readFile newfp
          let repaired := collapseStr webvtt
          if repaired ≠ webvtt then
            let fix := convertFilepath st2 newfp "vtt" "fix"
            (fix.1, some { sub with filepath := some fix.2, ext := "vtt" })
          else
            (st2, some { sub with filepath := some newfp, ext := "vtt" })

/-- The loop of `SubtitlesConverterPP.run` over `requested_subtitles`
(dict iteration order), accumulating surviving tracks in order. -/
def subtitlesGo (env : SubEnv) (st : ConvSt) (acc : List (String × SubInfo)) :
    List (String × SubInfo) → ConvSt × List (String × SubInfo)
  | [] => (st, acc)
  | (lang, sub) :: rest =>
    let r := processSub env st sub
    match r.2 with
    | none => subtitlesGo env r.1 acc rest
    | some sub' => subtitlesGo env r.1 (acc ++ [(lang, sub')]) rest

/-- `SubtitlesConverterPP.run`: returns `(files_to_delete,
new requested_subtitles)`. -/
def subtitles_run (env : SubEnv) (requested_subtitles : List (String × SubInfo)) :
    List String × List (String × SubInfo) :=
  let r := subtitlesGo env ⟨[], id⟩ [] requested_subtitles
  (r.1.files_to_delete, r.2)

/-! ### `ThumbnailConverterPP.run` (yt_dlp_slave.py lines 118-159) -/

/-- One thumbnail entry. -/
structure Thumb where
  filepath : Option String
deriving DecidableEq

/-- Oracles for the thumbnail pipeline: whether
`real_run_ffmpeg([(src, ...)], [(dst_escaped, scale ...)])` succeeds, and
`os.path.abspath`. -/
structure ThumbEnv where
  ffmpegConvert : String → String → Bool
  abspath : String → String

/-- State of the thumbnail loop: delete/move bookkeeping, the
`new_thumbnails` list and the `thumbnail_callback` invocations (in call
order). -/
structure ThumbSt where
  conv : ConvSt
  new_thumbnails : List Thumb
  callbacks : List String

/-- `new_filepath.replace('%', '%%')`. -/
def escapePercent (s : String) : String :=
  ⟨s.data.foldr (fun c acc => if c = '%' then '%' :: '%' :: acc else c :: acc) []⟩

/-- Body of the per-thumbnail loop of `ThumbnailConverterPP.run` (the
loop runs over `reversed(info['thumbnails'])`). -/
def stepThumb (env : ThumbEnv) (st : ThumbSt) (t : Thumb) : ThumbSt :=
  match t.filepath with
  | none => st
  | some fp =>
    if fp = "" then st
    else if st.new_thumbnails ≠ [] then
      { st with conv :=
          { st.conv with files_to_delete := st.conv.files_to_delete ++ [fp] } }
    else
      let conv := convertFilepath st.conv fp "jpg" "conv"
      let c1 := conv.1
      let newfp := conv.2
      if ! env.ffmpegConvert fp (escapePercent newfp) then
        { st with conv :=
            { c1 with files_to_delete := c1.files_to_delete ++ [newfp] } }
      else
        { conv := c1,
          new_thumbnails := ({ filepath := some newfp } : Thumb) :: st.new_thumbnails,
          callbacks := st.callbacks ++ [env.abspath newfp] }

/-- The loop over a list of thumbnails (already reversed). -/
def thumbsGo (env : ThumbEnv) (st : ThumbSt) : List Thumb → ThumbSt
  | [] => st
  | t :: rest => thumbsGo env (stepThumb env st t) rest

/-- `ThumbnailConverterPP.run` on `info['thumbnails']`
(ordered worst to best). -/
def thumbnails_run (env : ThumbEnv) (thumbs : List Thumb) : ThumbSt :=
  thumbsGo env ⟨⟨[], id⟩, [], []⟩ thumbs.reverse

/-- A thumbnail entry with a usable file path. -/
def usableThumb (t : Thumb) : Bool :=
  match t.filepath with
  | none => false
  | some fp => fp ≠ ""

/-- The usable file path of a thumbnail entry, if any. -/
def usablePath (t : Thumb) : Option String :=
  match t.filepath with
  | none => none
  | some fp => if fp = "" then none else some fp

/-- The converted path of the first entry (of an already-reversed, i.e.
best-first, list) with a usable path on which the transcoder succeeds;
`none` when the transcoder fails on every usable entry. -/
def firstThumbSuccess (env : ThumbEnv) : List Thumb → Option String
  | [] => none
  | t :: rest =>
    match t.filepath with
    | none => firstThumbSuccess env rest
    | some fp =>
      if fp = "" then firstThumbSuccess env rest
      else if env.ffmpegConvert fp (escapePercent (fp ++ ".conv.jpg")) then
        some (fp ++ ".conv.jpg")
      else firstThumbSuccess env rest

/-! ### Automatic-caption reconciliation (yt_dlp_slave.py lines 397-417)

`requested_automatic_subtitles` is a Python `set`, whose iteration order
is arbitrary; it is modelled as a list giving one concrete iteration
order.  `α` is the opaque type of the per-language track data. -/

/-- The inner `for requested_lang in requested_automatic_subtitles` loop
for one caption language: `none` = the loop completed without `break`
(track dropped); `some none` = direct/`'all'` match; `some (some r)` =
translated-variant match consuming base tag `r`. -/
def scanRequested (skip captionKeys : List String) (lang : String) :
    List String → Option (Option String)
  | [] => none
  | r :: rs =>
    if r = "all" ∨ r = lang then some none
    else if (r ++ "-").data.isPrefixOf lang.data ∧ r ∉ skip ∧ r ∉ captionKeys then
      some (some r)
    else scanRequested skip captionKeys lang rs

/-- The outer loop over `automatic_captions` (dict order), threading the
mutable `skip_captions` set.  Each kept track is recorded together with
the base tag its translated-variant match consumed, if any. -/
def reconcileGo {α : Type} (requested captionKeys : List String)
    (skip : List String) (acc : List (String × α × Option String)) :
    List (String × α) → List (String × α × Option String)
  | [] => acc
  | (lang, subs) :: rest =>
    if lang ∈ skip then reconcileGo requested captionKeys skip acc rest
    else
      match scanRequested skip captionKeys lang requested with
      | none => reconcileGo requested captionKeys skip acc rest
      | some none =>
        reconcileGo requested captionKeys skip (acc ++ [(lang, subs, none)]) rest
      | some (some r) =>
        reconcileGo requested captionKeys (skip ++ [r])
          (acc ++ [(lang, subs, some r)]) rest

/-- Lines 397-414: compute the kept automatic captions (with the
instrumentation of which base each translated-variant match consumed).
`subtitleLangs` is `{*(info.get('subtitles') or {})}`. -/
def reconcile_automatic_captions {α : Type} (requested subtitleLangs : List String)
    (automatic_captions : List (String × α)) : List (String × α × Option String) :=
  reconcileGo requested (automatic_captions.map Prod.fst) subtitleLangs []
    automatic_captions

/-- The resulting `new_automatic_captions` dict (instrumentation
dropped). -/
def new_automatic_captions {α : Type} (requested subtitleLangs : List String)
    (automatic_captions : List (String × α)) : List (String × α) :=
  (reconcile_automatic_captions requested subtitleLangs automatic_captions).map
    (fun x => (x.1, x.2.1))

/-- The claim's order-independent reading of the reconciliation rule,
processing caption tracks in order: a track is kept iff its language has
no ordinary subtitle track and either directly matches a requested tag
(or `'all'`), or — failing that — is a translated variant `xx-YY` of some
requested `xx` with no caption track, no ordinary track, and not yet
consumed by an earlier translated variant.  Clearly named claim-side
definition (a direct match does not consume a base under this reading). -/
def specReconGo {α : Type} (requested subtitleLangs captionKeys consumed : List String) :
    List (String × α) → List String
  | [] => []
  | (lang, _) :: rest =>
    if lang ∈ subtitleLangs then
      specReconGo requested subtitleLangs captionKeys consumed rest
    else if requested.any (fun r => r = "all" || r = lang) then
      lang :: specReconGo requested subtitleLangs captionKeys consumed rest
    else
      match requested.find? (fun r =>
          (r ++ "-").data.isPrefixOf lang.data && r ∉ subtitleLangs &&
          r ∉ captionKeys && r ∉ consumed) with
      | some r =>
        lang :: specReconGo requested subtitleLangs captionKeys (consumed ++ [r]) rest
      | none => specReconGo requested subtitleLangs captionKeys consumed rest

/-- The kept languages under the claim's reading. -/
def specKeptLangs {α : Type} (requested subtitleLangs : List String)
    (automatic_captions : List (String × α)) : List String :=
  specReconGo requested subtitleLangs (automatic_captions.map Prod.fst) []
    automatic_captions

/-! ## Theorems -/

/-- C10: every progress tick forwarded to `on_progress` is guarded
against division by zero and missing fields: the reported fraction is the
byte ratio only under the byte guard (both values known, total positive),
the fragment ratio only under the fragment guard and only when the byte
pair is incomplete, and `-1` in every remaining case; a `'finished'` tick
reports fraction, eta and speed as `-1`; and ticks with any other status
produce no call at all. -/
theorem c10_progress_guarded (d : ProgressTick) :
    ((d.status ≠ "downloading" ∧ d.status ≠ "finished") ↔ on_progress d = none) ∧
    (d.status = "finished" → ∃ r, on_progress d = some r ∧
      r.progress = -1 ∧ r.eta = -1 ∧ r.speed = -1) ∧
    (d.status = "downloading" → ∃ r, on_progress d = some r ∧
      (∀ b t, d.downloaded_bytes = some b → totalBytesOpt d = some t → 0 < t →
        r.progress = (b : ℚ) / (t : ℚ)) ∧
      ((d.downloaded_bytes = none ∨ totalBytesOpt d = none) →
        ∀ f n, d.fragment_index = some f → d.fragment_count = some n → 0 < n →
          r.progress = (f : ℚ) / (n : ℚ)) ∧
      ((d.downloaded_bytes = none ∨ totalBytesOpt d = none) →
        (d.fragment_index = none ∨ d.fragment_count = none ∨
          d.fragment_count = some 0) →
        r.progress = -1) ∧
      ((∃ b t, d.downloaded_bytes = some b ∧ totalBytesOpt d = some t ∧ 0 < t ∧
          r.progress = (b : ℚ) / (t : ℚ)) ∨
       (∃ f n, d.fragment_index = some f ∧ d.fragment_count = some n ∧ 0 < n ∧
          (d.downloaded_bytes = none ∨ totalBytesOpt d = none) ∧
          r.progress = (f : ℚ) / (n : ℚ)) ∨
       r.progress = -1)) := by
  obtain ⟨status, filename, db, tb, tbe, fi, fc, eta, speed⟩ := d
  by_cases hdl : status = "downloading"
  · subst hdl
    refine ⟨by simp [on_progress], by simp, fun _ => ?_⟩
    rcases db with _ | b <;> rcases tb with _ | t <;> rcases tbe with _ | e <;>
        rcases fi with _ | f <;> rcases fc with _ | n <;>
        simp [on_progress, totalBytesOpt] <;>
        try omega
  · by_cases hfin : status = "finished"
    · subst hfin
      refine ⟨by simp [on_progress], fun _ => ?_, by simp⟩
      simp [on_progress]
    · refine ⟨⟨fun _ => by simp [on_progress, hdl, hfin], fun _ => ⟨hdl, hfin⟩⟩,
        fun h => absurd h hfin, fun h => absurd h hdl⟩

/-- Witness for C10: a downloading tick with 5 of 10 (estimated) bytes
reports the fraction 5/10. -/
theorem c10_progress_guarded_witness :
    ∃ r, on_progress ⟨"downloading", "f", some 5, none, some 10, none, none,
        none, none⟩ = some r ∧ r.progress = (5 : ℚ) / 10 := by
  obtain ⟨-, -, h3⟩ := c10_progress_guarded
    ⟨"downloading", "f", some 5, none, some 10, none, none, none, none⟩
  obtain ⟨r, hr, ha, -, -, -⟩ := h3 rfl
  exact ⟨r, hr, ha 5 10 rfl rfl (by decide)⟩

/-- C1: with `tp` the first (bounded, `playlistend = 2`) probe and `np`
the noplaylist probe (reused from `tp` exactly when `tp`'s total is at
most 1), the controller asks the collaborator iff `tp`'s total strictly
exceeds `np`'s; on decline it uses the `np` result, on acceptance it runs
the full unbounded enumeration; without asking it runs the full
enumeration when `tp`'s total exceeds 1 but not `np`'s total; and
otherwise uses the `tp` result directly. -/
theorem c1_disambiguation {α : Type} (probe : PlOpts → ProbeOut α) (req : Bool) :
    (disambiguate probe req).calls.head? = some ⟨some 2, none⟩ ∧
    ((⟨some 2, some true⟩ : PlOpts) ∈ (disambiguate probe req).calls ↔
      1 < probeTotal (probe ⟨some 2, none⟩)) ∧
    ((disambiguate probe req).asked = true ↔
      probeTotal (if 1 < probeTotal (probe ⟨some 2, none⟩) then
          probe ⟨some 2, some true⟩ else probe ⟨some 2, none⟩) <
        probeTotal (probe ⟨some 2, none⟩)) ∧
    (probeTotal (if 1 < probeTotal (probe ⟨some 2, none⟩) then
          probe ⟨some 2, some true⟩ else probe ⟨some 2, none⟩) <
        probeTotal (probe ⟨some 2, none⟩) →
      (req = false → (disambiguate probe req).info_playlist =
          (if 1 < probeTotal (probe ⟨some 2, none⟩) then
            probe ⟨some 2, some true⟩ else probe ⟨some 2, none⟩).infos) ∧
      (req = true → (disambiguate probe req).info_playlist =
          (probe ⟨none, some false⟩).infos ∧
        (disambiguate probe req).calls.getLast? = some ⟨none, some false⟩)) ∧
    (¬ probeTotal (if 1 < probeTotal (probe ⟨some 2, none⟩) then
          probe ⟨some 2, some true⟩ else probe ⟨some 2, none⟩) <
        probeTotal (probe ⟨some 2, none⟩) →
      1 < probeTotal (probe ⟨some 2, none⟩) →
      (disambiguate probe req).asked = false ∧
      (disambiguate probe req).info_playlist = (probe ⟨none, none⟩).infos ∧
      (disambiguate probe req).calls.getLast? = some ⟨none, none⟩) ∧
    (probeTotal (probe ⟨some 2, none⟩) ≤ 1 →
      (disambiguate probe req).asked = false ∧
      (disambiguate probe req).info_playlist = (probe ⟨some 2, none⟩).infos ∧
      (disambiguate probe req).calls = [⟨some 2, none⟩]) := by
  by_cases h1 : 1 < probeTotal (probe ⟨some 2, none⟩)
  · have h3 : ¬ probeTotal (probe ⟨some 2, none⟩) ≤ 1 := by omega
    by_cases h2 : probeTotal (probe ⟨some 2, some true⟩) <
        probeTotal (probe ⟨some 2, none⟩)
    · cases req <;> simp [disambiguate, h1, h2, h3]
    · cases req <;> simp [disambiguate, h1, h2, h3]
  · have h3 : probeTotal (probe ⟨some 2, none⟩) ≤ 1 := by omega
    have h2 : ¬ probeTotal (probe ⟨some 2, none⟩) < probeTotal (probe ⟨some 2, none⟩) :=
      lt_irrefl _
    cases req <;> simp [disambiguate, h1, h2, h3]

/-- Witness for C1: a probe sequence with first-probe total 2, noplaylist
total 1 and an accepting user asks and enumerates fully; a probe sequence
with total 0 makes exactly one probe call. -/
theorem c1_disambiguation_witness :
    (disambiguate (fun o => if o = (⟨some 2, some true⟩ : PlOpts) then
        ⟨([0] : List ℕ), 0⟩
      else if o = ⟨none, some false⟩ then ⟨[5, 6, 7], 0⟩
      else ⟨[0, 1], 0⟩) true).asked = true ∧
    (disambiguate (fun o => if o = (⟨some 2, some true⟩ : PlOpts) then
        ⟨([0] : List ℕ), 0⟩
      else if o = ⟨none, some false⟩ then ⟨[5, 6, 7], 0⟩
      else ⟨[0, 1], 0⟩) true).info_playlist = [5, 6, 7] ∧
    (disambiguate (fun _ => ⟨([] : List ℕ), 0⟩) false).calls = [⟨some 2, none⟩] := by
  obtain ⟨-, -, hask, h4, -, -⟩ := c1_disambiguation
    (fun o => if o = (⟨some 2, some true⟩ : PlOpts) then ⟨([0] : List ℕ), 0⟩
      else if o = ⟨none, some false⟩ then ⟨[5, 6, 7], 0⟩
      else ⟨[0, 1], 0⟩) true
  obtain ⟨-, -, -, -, -, h6⟩ := c1_disambiguation (fun _ => ⟨([] : List ℕ), 0⟩) false
  exact ⟨hask.2 (by decide), ((h4 (by decide)).2 rfl).1, (h6 (by decide)).2.2⟩

/-- Helper: with authentication prompting still allowed but already
declined for the session, any authentication-required line just bumps the
skip counter and returns, with no prompt. -/
theorem error_skip_step (st : RetrySt) (login : String × String)
    (videopw msg : String)
    (hallow : st.allow_authentication_request = true)
    (hskip : st.skip_authentication = true)
    (hmatch : authLine msg = true) :
    error st login videopw msg =
      ⟨{ st with skipped_count := st.skipped_count + 1 }, .ret, false, false⟩ := by
  cases hsign : signInRegex msg
  · have hv : videoPasswordTest msg = true := by
      simpa [authLine, hsign] using hmatch
    simp [error, hallow, hskip, hsign, hv]
  · simp [error, hallow, hskip, hsign]

/-- Helper: once authentication prompting is disabled, no error line can
raise the retry signal. -/
theorem error_no_retry_of_disallowed (st : RetrySt) (login : String × String)
    (videopw msg : String)
    (h : st.allow_authentication_request = false) :
    (error st login videopw msg).action ≠ ErrAction.retry := by
  unfold error
  simp only [h, Bool.false_and, Bool.false_eq_true, if_false]
  split <;> simp

/-- Helper: from a declined-for-session state (prompting allowed, decline
recorded), a whole trace of authentication-required lines increments the
skip counter once per line, always returns, and never prompts. -/
theorem errorTrace_skip (st : RetrySt)
    (hallow : st.allow_authentication_request = true)
    (hskip : st.skip_authentication = true)
    (es : List ((String × String) × String × String))
    (hes : ∀ e ∈ es, authLine e.2.2 = true) :
    (errorTrace st es).1.skipped_count = st.skipped_count + es.length ∧
    ∀ o ∈ (errorTrace st es).2,
      o.action = .ret ∧ o.prompted_login = false ∧ o.prompted_password = false := by
  induction es generalizing st with
  | nil => simp [errorTrace]
  | cons e rest ih =>
    have hstep := error_skip_step st e.1 e.2.1 e.2.2 hallow hskip
      (hes e (List.mem_cons_self e rest))
    have ih' := ih { st with skipped_count := st.skipped_count + 1 } hallow hskip
      (fun e' he' => hes e' (List.mem_cons_of_mem e he'))
    obtain ⟨ih1, ih2⟩ := ih'
    constructor
    · simp only [errorTrace, hstep, List.length_cons]
      dsimp only at ih1 ⊢
      omega
    · intro o ho
      simp only [errorTrace, hstep, List.mem_cons] at ho
      rcases ho with rfl | ho
      · exact ⟨rfl, rfl, rfl⟩
      · exact ih2 o ho

/-- C2: a sign-in-required error line, with prompting allowed and not yet
declined, and a non-empty credential response: the classifier stores the
credentials into the job options, disables further authentication
prompting, and raises the retry signal; afterwards no error line can
cause another authentication retry. -/
theorem c2_auth_retry (st : RetrySt) (login : String × String)
    (videopw msg : String)
    (hallow : st.allow_authentication_request = true)
    (hskip : st.skip_authentication = false)
    (hmatch : signInRegex msg = true)
    (hnonempty : ¬ (login.1 = "" ∧ login.2 = "")) :
    (error st login videopw msg).action = .retry ∧
    (error st login videopw msg).st.opts.username = some login.1 ∧
    (error st login videopw msg).st.opts.password = some login.2 ∧
    (error st login videopw msg).st.allow_authentication_request = false ∧
    (error st login videopw msg).prompted_login = true ∧
    (∀ login' videopw' msg',
      (error (error st login videopw msg).st login' videopw' msg').action ≠
        ErrAction.retry) := by
  have hout : error st login videopw msg =
      ⟨{ st with opts := { st.opts with username := some login.1,
                                        password := some login.2 },
                 allow_authentication_request := false }, .retry, true, false⟩ := by
    simp [error, hallow, hskip, hmatch, hnonempty]
  refine ⟨by rw [hout], by rw [hout], by rw [hout], by rw [hout], by rw [hout], ?_⟩
  intro login' videopw' msg'
  apply error_no_retry_of_disallowed
  rw [hout]

/-- Witness for C2 at a concrete sign-in error line and credentials. -/
theorem c2_auth_retry_witness :
    (error ⟨true, false, 0, ⟨none, none, none⟩⟩ ("u", "p") ""
      "ERROR: Sign in to confirm your age").action = .retry ∧
    (error ⟨true, false, 0, ⟨none, none, none⟩⟩ ("u", "p") ""
      "ERROR: Sign in to confirm your age").st.opts.username = some "u" := by
  have h := c2_auth_retry ⟨true, false, 0, ⟨none, none, none⟩⟩ ("u", "p") ""
    "ERROR: Sign in to confirm your age" rfl rfl (by decide) (by decide)
  exact ⟨h.1, h.2.1⟩

/-- C3: an authentication-required line (either class) with prompting
allowed and an empty response: the classifier counts one skipped item,
records the decline for the session, and returns without retrying; from
then on every further authentication-required line also just counts one
skipped item, without prompting the collaborator again. -/
theorem c3_auth_decline (st : RetrySt) (login : String × String)
    (videopw msg : String)
    (hallow : st.allow_authentication_request = true)
    (hskip : st.skip_authentication = false)
    (hresp : (signInRegex msg = true ∧ login.1 = "" ∧ login.2 = "") ∨
             (signInRegex msg = false ∧ videoPasswordTest msg = true ∧
               videopw = "")) :
    (error st login videopw msg).action = .ret ∧
    (error st login videopw msg).st.skipped_count = st.skipped_count + 1 ∧
    (error st login videopw msg).st.skip_authentication = true ∧
    (error st login videopw msg).st.allow_authentication_request = true ∧
    (∀ es : List ((String × String) × String × String),
      (∀ e ∈ es, authLine e.2.2 = true) →
      (errorTrace (error st login videopw msg).st es).1.skipped_count =
        st.skipped_count + 1 + es.length ∧
      ∀ o ∈ (errorTrace (error st login videopw msg).st es).2,
        o.action = .ret ∧ o.prompted_login = false ∧ o.prompted_password = false) := by
  have hst : (error st login videopw msg).st =
      { st with skip_authentication := true,
                skipped_count := st.skipped_count + 1 } ∧
      (error st login videopw msg).action = .ret := by
    rcases hresp with ⟨hs, h1, h2⟩ | ⟨hs, hv, hpw⟩
    · constructor <;> simp [error, hallow, hskip, hs, h1, h2]
    · constructor <;> simp [error, hallow, hskip, hs, hv, hpw]
  obtain ⟨hst', hact⟩ := hst
  refine ⟨hact, by rw [hst'], by rw [hst'], by rw [hst']; exact hallow, ?_⟩
  intro es hes
  obtain ⟨t1, t2⟩ := errorTrace_skip (error st login videopw msg).st
    (by rw [hst']; exact hallow) (by rw [hst']) es hes
  refine ⟨?_, t2⟩
  rw [t1, hst']

/-- Witness for C3: declining at a concrete sign-in line counts one
skip, and one further password-required line counts a second skip. -/
theorem c3_auth_decline_witness :
    (error ⟨true, false, 0, ⟨none, none, none⟩⟩ ("", "") ""
      "ERROR: Sign in to confirm your age").st.skipped_count = 1 ∧
    (errorTrace (error ⟨true, false, 0, ⟨none, none, none⟩⟩ ("", "") ""
        "ERROR: Sign in to confirm your age").st
      [(("a", "b"), "c", "use the --video-password option")]).1.skipped_count = 2 := by
  have h := c3_auth_decline ⟨true, false, 0, ⟨none, none, none⟩⟩ ("", "") ""
    "ERROR: Sign in to confirm your age" rfl rfl (Or.inl ⟨by decide, rfl, rfl⟩)
  exact ⟨h.2.1, (h.2.2.2.2 [(("a", "b"), "c", "use the --video-password option")]
    (by decide)).1⟩

/-- C4 counterexample: the code trims LEADING whitespace as well
(Python `str.strip()`), so on the title `" a"` (with identity sanitizer
and UTF-8 byte length) it returns `"a"`, while a shortener that trims
only trailing whitespace — as the claim describes — returns `" a"`. -/
theorem c4_counterexample :
    short_filename id String.utf8ByteSize " a" 10 = some "a" ∧
    spec_short_filename id String.utf8ByteSize " a" 10 = some " a" ∧
    ("a" : String) ≠ " a" := by
  refine ⟨by decide, by decide, by decide⟩

/-- Helper for C4: full characterization of the descending scan
`shortFromI`: either it returns the candidate of the largest fitting
prefix length `i ≤ k`, or no prefix length up to `k` fits and it fails. -/
theorem shortFromI_cases (san : String → String) (enc : String → Nat)
    (name : String) (budget : ℕ) (k : ℕ) :
    (∃ i, i ≤ k ∧
      shortFromI san enc name budget k = some (shortCandidate san name i) ∧
      enc (shortCandidate san name i) < budget ∧
      ∀ j, j ≤ k → enc (shortCandidate san name j) < budget → j ≤ i) ∨
    (shortFromI san enc name budget k = none ∧
      ∀ i, i ≤ k → ¬ enc (shortCandidate san name i) < budget) := by
  induction k with
  | zero =>
    by_cases h : enc (shortCandidate san name 0) < budget
    · exact Or.inl ⟨0, le_refl 0, by simp [shortFromI, h], h, fun j hj _ => hj⟩
    · refine Or.inr ⟨by simp [shortFromI, h], fun i hi => ?_⟩
      rw [Nat.le_zero.mp hi]
      exact h
  | succ k ih =>
    by_cases h : enc (shortCandidate san name (k + 1)) < budget
    · exact Or.inl ⟨k + 1, le_refl _, by simp [shortFromI, h], h, fun j hj _ => hj⟩
    · rcases ih with ⟨i, hik, heq, hf, hmax⟩ | ⟨heq, hall⟩
      · refine Or.inl ⟨i, hik.trans (Nat.le_succ k), by simp [shortFromI, h, heq],
          hf, fun j hj hfj => ?_⟩
        rcases Nat.lt_succ_iff_lt_or_eq.mp (Nat.lt_succ_of_le hj) with hj' | hj'
        · exact hmax j (Nat.lt_succ_iff.mp hj') hfj
        · exact absurd (hj' ▸ hfj) h
      · refine Or.inr ⟨by simp [shortFromI, h, heq], fun i hi hfi => ?_⟩
        rcases Nat.lt_succ_iff_lt_or_eq.mp (Nat.lt_succ_of_le hi) with hi' | hi'
        · exact hall i (Nat.lt_succ_iff.mp hi') hfi
        · exact absurd (hi' ▸ hfi) h

/-- C4 amended: for every title, byte budget, sanitizer and encoding, the
shortener either returns the sanitized candidate of the LONGEST prefix
(trimmed of leading and trailing whitespace, ellipsis appended exactly
when the prefix is proper) whose encoding is strictly below the budget,
or fails exactly when no prefix — including the empty one — fits. -/
theorem c4_amended (san : String → String) (enc : String → Nat)
    (name : String) (budget : ℕ) :
    (∃ i, i ≤ name.data.length ∧
      short_filename san enc name budget = some (shortCandidate san name i) ∧
      enc (shortCandidate san name i) < budget ∧
      ∀ j, j ≤ name.data.length → enc (shortCandidate san name j) < budget → j ≤ i) ∨
    (short_filename san enc name budget = none ∧
      ∀ i, i ≤ name.data.length → ¬ enc (shortCandidate san name i) < budget) :=
  shortFromI_cases san enc name budget name.data.length

/-- Witness for C4 (amended): with byte budget 0 nothing fits and the
shortener fails. -/
theorem c4_amended_witness :
    short_filename id String.utf8ByteSize "ab" 0 = none := by
  rcases c4_amended id String.utf8ByteSize "ab" 0 with ⟨i, -, -, hf, -⟩ | ⟨heq, -⟩
  · exact absurd hf (Nat.not_lt_zero _)
  · exact heq

/-- Helper: `splitext` splits the name into root and extension. -/
theorem splitext_eq (l : List Char) :
    splitext l = (l, []) ∨
    ∃ d, lastDot l = some d ∧
      splitext l = (l.take d, l.drop d) := by
  unfold splitext
  split
  · exact Or.inl rfl
  · rename_i d hd
    split
    · exact Or.inr ⟨d, hd, rfl⟩
    · exact Or.inl rfl

theorem splitext_fst_append_snd (l : List Char) :
    (splitext l).1 ++ (splitext l).2 = l := by
  rcases splitext_eq l with heq | ⟨d, hd, heq⟩ <;> rw [heq]
  · simp
  · exact List.take_append_drop d l

/-- Helper: the index reported by `lastDot` is a valid index of a dot. -/
theorem lastDot_get (l : List Char) (d : ℕ) (h : lastDot l = some d) :
    d < l.length ∧ l[d]? = some '.' := by
  induction l generalizing d with
  | nil => simp [lastDot] at h
  | cons c rest ih =>
    simp only [lastDot] at h
    cases hr : lastDot rest with
    | some k =>
      rw [hr] at h
      cases h
      obtain ⟨hlt, hget⟩ := ih k hr
      exact ⟨Nat.succ_lt_succ hlt, by simpa using hget⟩
    | none =>
      rw [hr] at h
      by_cases hc : c = '.'
      · simp only [hc, if_pos] at h
        cases h
        exact ⟨Nat.succ_pos _, by simp [hc]⟩
      · simp [hc] at h

/-- Helper: a nonempty extension starts with a dot. -/
theorem splitext_snd_cons (l : List Char) (h : (splitext l).2 ≠ []) :
    ∃ t, (splitext l).2 = '.' :: t := by
  rcases splitext_eq l with heq | ⟨d, hd, heq⟩
  · rw [heq] at h; simp at h
  · rw [heq] at h ⊢
    obtain ⟨hlt, hget⟩ := lastDot_get l d hd
    have hdot : l[d] = '.' := by
      rw [List.getElem?_eq_getElem hlt] at hget
      exact Option.some.inj hget
    refine ⟨l.drop (d + 1), ?_⟩
    show l.drop d = _
    rw [List.drop_eq_getElem_cons hlt, hdot]

/-- Helper: if the extension is empty, the root is the whole name. -/
theorem splitext_fst_of_snd_nil (l : List Char) (h : (splitext l).2 = []) :
    (splitext l).1 = l := by
  have := splitext_fst_append_snd l
  rw [h, List.append_nil] at this
  exact this

/-- C5 counterexample: in video mode, an extensionless regular file whose
name is exactly the sanitized title satisfies the claim's match condition
(its extension is not `.mp3`), yet the code does not short-circuit — the
glob pattern `title + '.*'` requires a dot — and proceeds to create the
temporary directory and invoke the fetch. -/
theorem c5_counterexample :
    claimExistingMatch [⟨"My Video", true⟩] "My Video" "video" = true ∧
    find_existing_download [⟨"My Video", true⟩] "My Video" "video" = none ∧
    handleItem [⟨"My Video", true⟩] "My Video" "video" ".mp4" =
      [.temp_dir_created, .fetch_invoked, .download_finished "My Video.mp4"] := by
  exact ⟨by decide, by decide, by decide⟩

/-- C5 amended: restricted to matching files with a NONEMPTY extension,
the claim holds: such a file exists iff `_find_existing_download` finds
one, and then the per-item step emits only the finished report for the
found name — no temporary directory, no fetch — while without a match it
fetches. -/
theorem c5_amended (entries : List DirEntry) (title mode fetched_ext : String) :
    (amendedExistingMatch entries title mode = true ↔
      ∃ f, find_existing_download entries title mode = some f) ∧
    (∀ f, find_existing_download entries title mode = some f →
      handleItem entries title mode fetched_ext = [.download_finished f] ∧
      ItemEvent.fetch_invoked ∉ handleItem entries title mode fetched_ext ∧
      ItemEvent.temp_dir_created ∉ handleItem entries title mode fetched_ext ∧
      ∃ e ∈ entries, e.name = f ∧ e.is_regular_file = true ∧
        (⟨(splitext f.data).1⟩ : String) = title ∧
        extClassMatches mode ⟨(splitext f.data).2⟩ = true) ∧
    (find_existing_download entries title mode = none →
      handleItem entries title mode fetched_ext =
        [.temp_dir_created, .fetch_invoked,
         .download_finished (title ++ fetched_ext)]) := by
  have hglob_of : ∀ (e : DirEntry), (⟨(splitext e.name.data).1⟩ : String) = title →
      (splitext e.name.data).2 ≠ [] → globTitleDotStar title e.name = true := by
    intro e htitle hext
    obtain ⟨t, ht⟩ := splitext_snd_cons e.name.data hext
    have hdata : (splitext e.name.data).1 = title.data := by
      have := congrArg String.data htitle
      simpa using this
    have hname : e.name.data = title.data ++ ('.' :: t) := by
      conv_lhs => rw [← splitext_fst_append_snd e.name.data]
      rw [hdata, ht]
    unfold globTitleDotStar
    rw [List.isPrefixOf_iff_prefix, String.data_append, hname]
    have : ("." : String).data = ['.'] := rfl
    rw [this]
    exact (List.prefix_append_right_inj title.data).mpr ⟨t, rfl⟩
  have hext_of : ∀ (e : DirEntry), globTitleDotStar title e.name = true →
      (⟨(splitext e.name.data).1⟩ : String) = title →
      (splitext e.name.data).2 ≠ [] := by
    intro e hglob htitle hnil
    have hfst := splitext_fst_of_snd_nil e.name.data hnil
    have hdata : (splitext e.name.data).1 = title.data := by
      have := congrArg String.data htitle
      simpa using this
    have hname : e.name.data = title.data := by rw [← hfst, hdata]
    unfold globTitleDotStar at hglob
    rw [List.isPrefixOf_iff_prefix, String.data_append, hname] at hglob
    have hlen := hglob.length_le
    simp at hlen
  refine ⟨⟨?_, ?_⟩, ?_, ?_⟩
  · intro hm
    unfold amendedExistingMatch at hm
    rw [List.any_eq_true] at hm
    obtain ⟨e, he, hcond⟩ := hm
    simp only [Bool.and_eq_true, decide_eq_true_eq, Bool.not_eq_true',
      List.isEmpty_eq_false] at hcond
    obtain ⟨⟨⟨hreg, htitle⟩, hext⟩, hclass⟩ := hcond
    cases hfind : find_existing_download entries title mode with
    | some f => exact ⟨f, rfl⟩
    | none =>
      exfalso
      unfold find_existing_download at hfind
      rw [List.findSome?_eq_none_iff] at hfind
      have hthis := hfind e he
      rw [if_pos (hglob_of e htitle hext)] at hthis
      rw [if_pos ⟨htitle, hclass, hreg⟩] at hthis
      exact Option.noConfusion hthis
  · intro ⟨f, hf⟩
    unfold find_existing_download at hf
    obtain ⟨e, he, hfe⟩ := List.exists_of_findSome?_eq_some hf
    by_cases hglob : globTitleDotStar title e.name = true
    · rw [if_pos hglob] at hfe
      by_cases hcond : (⟨(splitext e.name.data).1⟩ : String) = title ∧
          extClassMatches mode ⟨(splitext e.name.data).2⟩ ∧ e.is_regular_file
      · obtain ⟨htitle, hclass, hreg⟩ := hcond
        unfold amendedExistingMatch
        rw [List.any_eq_true]
        refine ⟨e, he, ?_⟩
        simp only [Bool.and_eq_true, decide_eq_true_eq, Bool.not_eq_true',
          List.isEmpty_eq_false]
        exact ⟨⟨⟨hreg, htitle⟩, hext_of e hglob htitle⟩, hclass⟩
      · rw [if_neg hcond] at hfe
        exact Option.noConfusion hfe
    · rw [if_neg hglob] at hfe
      exact Option.noConfusion hfe
  · intro f hf
    refine ⟨by unfold handleItem; rw [hf], ?_, ?_, ?_⟩
    · unfold handleItem; rw [hf]; simp
    · unfold handleItem; rw [hf]; simp
    · unfold find_existing_download at hf
      obtain ⟨e, he, hfe⟩ := List.exists_of_findSome?_eq_some hf
      by_cases hglob : globTitleDotStar title e.name = true
      · rw [if_pos hglob] at hfe
        by_cases hcond : (⟨(splitext e.name.data).1⟩ : String) = title ∧
            extClassMatches mode ⟨(splitext e.name.data).2⟩ ∧ e.is_regular_file
        · obtain ⟨htitle, hclass, hreg⟩ := hcond
          have hfeq : e.name = f := by
            rw [if_pos ⟨htitle, hclass, hreg⟩] at hfe
            exact Option.some.inj hfe
          exact ⟨e, he, hfeq, hreg, hfeq ▸ htitle, hfeq ▸ hclass⟩
        · rw [if_neg hcond] at hfe
          exact Option.noConfusion hfe
      · rw [if_neg hglob] at hfe
        exact Option.noConfusion hfe
  · intro hnone
    unfold handleItem
    rw [hnone]

/-- Witness for C5 (amended): a matching `My Video.mp4` in video mode
short-circuits to the finished report alone. -/
theorem c5_amended_witness :
    handleItem [⟨"My Video.mp4", true⟩] "My Video" "video" ".webm" =
      [.download_finished "My Video.mp4"] :=
  ((c5_amended [⟨"My Video.mp4", true⟩] "My Video" "video" ".webm").2.1
    "My Video.mp4" (by decide)).1

/-- Helper: once a thumbnail has been kept, the rest of the loop only
appends the remaining usable paths to the delete list. -/
theorem thumbsGo_post (env : ThumbEnv) (l : List Thumb) :
    ∀ st : ThumbSt, st.new_thumbnails ≠ [] →
      (thumbsGo env st l).new_thumbnails = st.new_thumbnails ∧
      (thumbsGo env st l).callbacks = st.callbacks := by
  induction l with
  | nil => exact fun st _ => ⟨rfl, rfl⟩
  | cons t rest ih =>
    intro st hne
    have hstep : (stepThumb env st t).new_thumbnails = st.new_thumbnails ∧
        (stepThumb env st t).callbacks = st.callbacks := by
      unfold stepThumb
      cases t.filepath with
      | none => exact ⟨rfl, rfl⟩
      | some fp =>
        by_cases hfp : fp = ""
        · simp [hfp]
        · simp [hfp, hne]
    have := ih (stepThumb env st t) (by rw [hstep.1]; exact hne)
    constructor
    · show (thumbsGo env (stepThumb env st t) rest).new_thumbnails = _
      rw [this.1, hstep.1]
    · show (thumbsGo env (stepThumb env st t) rest).callbacks = _
      rw [this.2, hstep.2]

/-- Helper: the search phase of the thumbnail loop: starting with no kept
thumbnail, the outcome is governed by the first usable entry on which the
transcoder succeeds. -/
theorem thumbsGo_search (env : ThumbEnv) (l : List Thumb) :
    ∀ st : ThumbSt, st.new_thumbnails = [] →
      (firstThumbSuccess env l = none →
        (thumbsGo env st l).new_thumbnails = [] ∧
        (thumbsGo env st l).callbacks = st.callbacks) ∧
      (∀ newfp, firstThumbSuccess env l = some newfp →
        (thumbsGo env st l).new_thumbnails = [⟨some newfp⟩] ∧
        (thumbsGo env st l).callbacks = st.callbacks ++ [env.abspath newfp]) := by
  induction l with
  | nil =>
    intro st hempty
    refine ⟨fun _ => ⟨hempty, rfl⟩, fun newfp h => ?_⟩
    simp [firstThumbSuccess] at h
  | cons t rest ih =>
    intro st hempty
    cases hfp : t.filepath with
    | none =>
      have hstep : stepThumb env st t = st := by
        simp only [stepThumb, hfp]
      have hfirst : firstThumbSuccess env (t :: rest) = firstThumbSuccess env rest := by
        rw [firstThumbSuccess.eq_2, hfp]
      have := ih st hempty
      refine ⟨fun h => ?_, fun newfp h => ?_⟩
      · rw [hfirst] at h
        simpa [thumbsGo, hstep] using this.1 h
      · rw [hfirst] at h
        simpa [thumbsGo, hstep] using this.2 newfp h
    | some fp =>
      by_cases hfpe : fp = ""
      · have hstep : stepThumb env st t = st := by
          simp [stepThumb, hfp, hfpe]
        have hfirst : firstThumbSuccess env (t :: rest) = firstThumbSuccess env rest := by
          rw [firstThumbSuccess.eq_2, hfp]
          simp [hfpe]
        have := ih st hempty
        refine ⟨fun h => ?_, fun newfp h => ?_⟩
        · rw [hfirst] at h
          simpa [thumbsGo, hstep] using this.1 h
        · rw [hfirst] at h
          simpa [thumbsGo, hstep] using this.2 newfp h
      · by_cases hcv : env.ffmpegConvert fp (escapePercent (fp ++ ".conv.jpg")) = true
        · -- conversion succeeds on this entry: it is kept
          have hstep : (stepThumb env st t).new_thumbnails = [⟨some (fp ++ ".conv.jpg")⟩] ∧
              (stepThumb env st t).callbacks =
                st.callbacks ++ [env.abspath (fp ++ ".conv.jpg")] := by
            unfold stepThumb
            rw [hfp]
            simp [hfpe, hempty, convertFilepath, hcv]
          have hfirst : firstThumbSuccess env (t :: rest) = some (fp ++ ".conv.jpg") := by
            rw [firstThumbSuccess.eq_2, hfp]
            simp [hfpe, hcv]
          have hpost := thumbsGo_post env rest (stepThumb env st t)
            (by rw [hstep.1]; exact List.cons_ne_nil _ _)
          refine ⟨fun h => ?_, fun newfp h => ?_⟩
          · rw [hfirst] at h; exact Option.noConfusion h
          · rw [hfirst] at h
            cases h
            constructor
            · show (thumbsGo env (stepThumb env st t) rest).new_thumbnails = _
              rw [hpost.1, hstep.1]
            · show (thumbsGo env (stepThumb env st t) rest).callbacks = _
              rw [hpost.2, hstep.2]
        · -- conversion fails on this entry: fall through to the rest
          have hstep : (stepThumb env st t).new_thumbnails = [] ∧
              (stepThumb env st t).callbacks = st.callbacks := by
            unfold stepThumb
            rw [hfp]
            simp [hfpe, hempty, convertFilepath, hcv]
          have hfirst : firstThumbSuccess env (t :: rest) = firstThumbSuccess env rest := by
            rw [firstThumbSuccess.eq_2, hfp]
            simp [hfpe, hcv]
          have := ih (stepThumb env st t) hstep.1
          refine ⟨fun h => ?_, fun newfp h => ?_⟩
          · rw [hfirst] at h
            have h' := this.1 h
            refine ⟨?_, ?_⟩
            · show (thumbsGo env (stepThumb env st t) rest).new_thumbnails = _
              exact h'.1
            · show (thumbsGo env (stepThumb env st t) rest).callbacks = _
              rw [h'.2, hstep.2]
          · rw [hfirst] at h
            have h' := this.2 newfp h
            refine ⟨?_, ?_⟩
            · show (thumbsGo env (stepThumb env st t) rest).new_thumbnails = _
              exact h'.1
            · show (thumbsGo env (stepThumb env st t) rest).callbacks = _
              rw [h'.2, hstep.2]

/-- Helper: decomposing a usable-path fact. -/
theorem usablePath_eq_some (t : Thumb) (fp : String) (h : usablePath t = some fp) :
    t.filepath = some fp ∧ fp ≠ "" := by
  obtain ⟨p⟩ := t
  cases p with
  | none => exact Option.noConfusion h
  | some fp0 =>
    by_cases hfpe : fp0 = ""
    · rw [show usablePath ⟨some fp0⟩ = none from by simp [usablePath, hfpe]] at h
      exact Option.noConfusion h
    · rw [show usablePath ⟨some fp0⟩ = some fp0 from by simp [usablePath, hfpe]] at h
      cases h
      exact ⟨rfl, hfpe⟩

/-- Helper: building a usable-path fact. -/
theorem usablePath_of (t : Thumb) (fp : String) (h1 : t.filepath = some fp)
    (h2 : fp ≠ "") : usablePath t = some fp := by
  obtain ⟨p⟩ := t
  cases h1
  simp [usablePath, h2]

/-- Helper: the delete list only grows along the thumbnail loop. -/
theorem thumbsGo_delete_mono (env : ThumbEnv) (l : List Thumb) :
    ∀ st : ThumbSt, ∀ x ∈ st.conv.files_to_delete,
      x ∈ (thumbsGo env st l).conv.files_to_delete := by
  induction l with
  | nil => exact fun st x hx => hx
  | cons t rest ih =>
    intro st x hx
    refine ih (stepThumb env st t) x ?_
    obtain ⟨p⟩ := t
    cases p with
    | none => exact hx
    | some fp =>
      by_cases hfpe : fp = ""
      · simpa [stepThumb, hfpe] using hx
      · by_cases hne : st.new_thumbnails = []
        · by_cases hcv : env.ffmpegConvert fp (escapePercent (fp ++ ".conv.jpg")) = true
          · simp [stepThumb, hfpe, hne, hcv, convertFilepath, hx]
          · simp [stepThumb, hfpe, hne, hcv, convertFilepath, hx]
        · simp [stepThumb, hfpe, hne, hx]

/-- Helper: every usable thumbnail path ends up scheduled for deletion
(the kept thumbnail is the converted copy, not the original). -/
theorem thumbsGo_deletes (env : ThumbEnv) (l : List Thumb) :
    ∀ st : ThumbSt, ∀ t ∈ l, ∀ fp, usablePath t = some fp →
      fp ∈ (thumbsGo env st l).conv.files_to_delete := by
  induction l with
  | nil => intro st t ht; exact absurd ht (List.not_mem_nil t)
  | cons t₀ rest ih =>
    intro st t ht fp hfp
    rcases List.mem_cons.mp ht with rfl | ht'
    · obtain ⟨hfp0, hfpe⟩ := usablePath_eq_some t fp hfp
      refine thumbsGo_delete_mono env rest (stepThumb env st t) fp ?_
      obtain ⟨p⟩ := t
      cases hfp0
      by_cases hne : st.new_thumbnails = []
      · by_cases hcv : env.ffmpegConvert fp (escapePercent (fp ++ ".conv.jpg")) = true
        · simp [stepThumb, hfpe, hne, hcv, convertFilepath]
        · simp [stepThumb, hfpe, hne, hcv, convertFilepath]
      · simp [stepThumb, hfpe, hne]
    · exact ih (stepThumb env st t₀) t ht' fp hfp

/-- Helper: `firstThumbSuccess` is `none` iff the transcoder fails on
every usable entry. -/
theorem firstThumbSuccess_eq_none_iff (env : ThumbEnv) (l : List Thumb) :
    firstThumbSuccess env l = none ↔
      ∀ t ∈ l, ∀ fp, usablePath t = some fp →
        env.ffmpegConvert fp (escapePercent (fp ++ ".conv.jpg")) = false := by
  induction l with
  | nil => simp [firstThumbSuccess]
  | cons t rest ih =>
    obtain ⟨p⟩ := t
    cases p with
    | none =>
      have hfirst : firstThumbSuccess env (⟨none⟩ :: rest) = firstThumbSuccess env rest := by
        rw [firstThumbSuccess.eq_2]
      rw [hfirst, ih]
      constructor
      · intro h t' ht' fp hfp'
        rcases List.mem_cons.mp ht' with rfl | ht''
        · exact Option.noConfusion (usablePath_eq_some _ fp hfp').1
        · exact h t' ht'' fp hfp'
      · intro h t' ht' fp hfp'
        exact h t' (List.mem_cons_of_mem _ ht') fp hfp'
    | some fp0 =>
      by_cases hfpe : fp0 = ""
      · have hfirst : firstThumbSuccess env (⟨some fp0⟩ :: rest) =
            firstThumbSuccess env rest := by
          rw [firstThumbSuccess.eq_2]
          simp [hfpe]
        rw [hfirst, ih]
        constructor
        · intro h t' ht' fp hfp'
          rcases List.mem_cons.mp ht' with rfl | ht''
          · obtain ⟨h1, h2⟩ := usablePath_eq_some _ fp hfp'
            have h3 : fp0 = fp := Option.some.inj h1
            rw [h3] at hfpe
            exact absurd hfpe h2
          · exact h t' ht'' fp hfp'
        · intro h t' ht' fp hfp'
          exact h t' (List.mem_cons_of_mem _ ht') fp hfp'
      · by_cases hcv : env.ffmpegConvert fp0 (escapePercent (fp0 ++ ".conv.jpg")) = true
        · have hfirst : firstThumbSuccess env (⟨some fp0⟩ :: rest) =
              some (fp0 ++ ".conv.jpg") := by
            rw [firstThumbSuccess.eq_2]
            simp [hfpe, hcv]
          rw [hfirst]
          constructor
          · intro h
            exact Option.noConfusion h
          · intro h
            have hthis := h ⟨some fp0⟩ (List.mem_cons_self _ _) fp0
              (usablePath_of _ _ rfl hfpe)
            rw [hcv] at hthis
            exact Bool.noConfusion hthis
        · have hfirst : firstThumbSuccess env (⟨some fp0⟩ :: rest) =
              firstThumbSuccess env rest := by
            rw [firstThumbSuccess.eq_2]
            simp [hfpe, hcv]
          rw [hfirst, ih]
          constructor
          · intro h t' ht' fp hfp'
            rcases List.mem_cons.mp ht' with rfl | ht''
            · obtain ⟨h1, h2⟩ := usablePath_eq_some _ fp hfp'
              have h3 : fp0 = fp := Option.some.inj h1
              subst h3
              exact Bool.eq_false_iff.mpr hcv
            · exact h t' ht'' fp hfp'
          · intro h t' ht' fp hfp'
            exact h t' (List.mem_cons_of_mem _ ht') fp hfp'

/-- C7 counterexample: thumbnails `[worst w, best b]`, transcoder failing
on `b` and succeeding on `w`: the pipeline does NOT yield zero
thumbnails — it falls back to the next candidate, keeps the converted
`w`, and invokes the reporting hook for it. -/
theorem c7_counterexample :
    (thumbnails_run ⟨fun src _ => !(src == "b"), fun s => "/abs/" ++ s⟩
      [⟨some "w"⟩, ⟨some "b"⟩]).new_thumbnails = [⟨some "w.conv.jpg"⟩] ∧
    (thumbnails_run ⟨fun src _ => !(src == "b"), fun s => "/abs/" ++ s⟩
      [⟨some "w"⟩, ⟨some "b"⟩]).callbacks = ["/abs/w.conv.jpg"] ∧
    (thumbnails_run ⟨fun src _ => !(src == "b"), fun s => "/abs/" ++ s⟩
      [⟨some "w"⟩, ⟨some "b"⟩]).new_thumbnails.length ≠ 0 := by
  exact ⟨by decide, by decide, by decide⟩

/-- C7 amended: the pipeline tries the usable entries from best to worst
until the transcoder first succeeds; it yields zero thumbnails (and no
hook call) exactly when conversion fails for every usable candidate; on
the first success it returns that single converted thumbnail and invokes
the hook with its absolute path; and every usable entry's original file
is scheduled for deletion. -/
theorem c7_amended (env : ThumbEnv) (thumbs : List Thumb) :
    (firstThumbSuccess env thumbs.reverse = none ↔
      ∀ t ∈ thumbs, ∀ fp, usablePath t = some fp →
        env.ffmpegConvert fp (escapePercent (fp ++ ".conv.jpg")) = false) ∧
    (firstThumbSuccess env thumbs.reverse = none →
      (thumbnails_run env thumbs).new_thumbnails = [] ∧
      (thumbnails_run env thumbs).callbacks = []) ∧
    (∀ newfp, firstThumbSuccess env thumbs.reverse = some newfp →
      (thumbnails_run env thumbs).new_thumbnails = [⟨some newfp⟩] ∧
      (thumbnails_run env thumbs).callbacks = [env.abspath newfp]) ∧
    (∀ t ∈ thumbs, ∀ fp, usablePath t = some fp →
      fp ∈ (thumbnails_run env thumbs).conv.files_to_delete) := by
  have hsearch := thumbsGo_search env thumbs.reverse ⟨⟨[], id⟩, [], []⟩ rfl
  refine ⟨?_, hsearch.1, fun newfp h => hsearch.2 newfp h, ?_⟩
  · rw [firstThumbSuccess_eq_none_iff]
    constructor
    · intro h t ht fp hfp
      exact h t (List.mem_reverse.mpr ht) fp hfp
    · intro h t ht fp hfp
      exact h t (List.mem_reverse.mp ht) fp hfp
  · intro t ht fp hfp
    exact thumbsGo_deletes env thumbs.reverse ⟨⟨[], id⟩, [], []⟩ t
      (List.mem_reverse.mpr ht) fp hfp

/-- Witness for C7 (amended): same environment as the counterexample; the
fallback success is the first success of the best-to-worst scan. -/
theorem c7_amended_witness :
    (thumbnails_run ⟨fun src _ => !(src == "b"), fun s => "/abs/" ++ s⟩
      [⟨some "w"⟩, ⟨some "b"⟩]).callbacks = ["/abs/" ++ "w.conv.jpg"] :=
  ((c7_amended ⟨fun src _ => !(src == "b"), fun s => "/abs/" ++ s⟩
    [⟨some "w"⟩, ⟨some "b"⟩]).2.2.1 "w.conv.jpg" (by decide)).2

/-- Helper: the per-track subtitle step: its kept-track result does not
depend on the threaded delete/move state, the delete list only grows, and
a dropped usable track always has its original file scheduled for
deletion. -/
theorem processSub_spec (env : SubEnv) (sub : SubInfo) (st : ConvSt) :
    (processSub env st sub).2 = (processSub env ⟨[], id⟩ sub).2 ∧
    (∀ x ∈ st.files_to_delete, x ∈ (processSub env st sub).1.files_to_delete) ∧
    (∀ fp, sub.filepath = some fp → fp ≠ "" →
      (processSub env st sub).2 = none →
      fp ∈ (processSub env st sub).1.files_to_delete) := by
  cases hf : sub.filepath with
  | none => simp [processSub, hf]
  | some fp0 =>
    by_cases hfe : fp0 = ""
    · simp [processSub, hf, hfe]
    · by_cases hfam : sub.ext = "dfxp" ∨ sub.ext = "ttml" ∨ sub.ext = "tt"
      · cases hdf : env.dfxp2srt (env.readFile fp0) with
        | none =>
          simp [processSub, hf, hfe, hfam, hdf, convertFilepath, List.mem_append] <;>
            exact fun x hx => Or.inl hx
        | some d =>
          by_cases hff : env.ffmpegToVtt (fp0 ++ ".conv.srt")
              (fp0 ++ ".conv.srt" ++ ".conv.vtt") = true
          · by_cases hrep :
                collapseStr (env.readFile (fp0 ++ ".conv.srt" ++ ".conv.vtt")) =
                  env.readFile (fp0 ++ ".conv.srt" ++ ".conv.vtt")
            · simp [processSub, hf, hfe, hfam, hdf, convertFilepath, hff, hrep,
                List.mem_append] <;>
            exact fun x hx => Or.inl hx
            · simp [processSub, hf, hfe, hfam, hdf, convertFilepath, hff, hrep,
                List.mem_append] <;>
            exact fun x hx => Or.inl hx
          · simp [processSub, hf, hfe, hfam, hdf, convertFilepath, hff,
              List.mem_append] <;>
            exact fun x hx => Or.inl hx
      · by_cases hff : env.ffmpegToVtt fp0 (fp0 ++ ".conv.vtt") = true
        · by_cases hrep : collapseStr (env.readFile (fp0 ++ ".conv.vtt")) =
              env.readFile (fp0 ++ ".conv.vtt")
          · simp [processSub, hf, hfe, hfam, hff, hrep, convertFilepath,
              List.mem_append] <;>
            exact fun x hx => Or.inl hx
          · simp [processSub, hf, hfe, hfam, hff, hrep, convertFilepath,
              List.mem_append] <;>
            exact fun x hx => Or.inl hx
        · simp [processSub, hf, hfe, hfam, hff, convertFilepath, List.mem_append] <;>
            exact fun x hx => Or.inl hx

/-- Helper: behaviour of the subtitle loop: accumulated survivors are
kept; survivors come from the accumulator or from tracks whose per-track
step succeeds; the delete list grows; a successful track's converted
version is among the survivors; and a dropped usable track's original
file is scheduled for deletion. -/
theorem subtitlesGo_spec (env : SubEnv) (l : List (String × SubInfo)) :
    ∀ (st : ConvSt) (acc : List (String × SubInfo)),
      (∀ p ∈ acc, p ∈ (subtitlesGo env st acc l).2) ∧
      (∀ p ∈ (subtitlesGo env st acc l).2, p ∈ acc ∨
        ∃ sub, (p.1, sub) ∈ l ∧ (processSub env ⟨[], id⟩ sub).2 ≠ none) ∧
      (∀ x ∈ st.files_to_delete, x ∈ (subtitlesGo env st acc l).1.files_to_delete) ∧
      (∀ lang sub sub', (lang, sub) ∈ l →
        (processSub env ⟨[], id⟩ sub).2 = some sub' →
        (lang, sub') ∈ (subtitlesGo env st acc l).2) ∧
      (∀ lang sub, (lang, sub) ∈ l → ∀ fp, sub.filepath = some fp → fp ≠ "" →
        (processSub env ⟨[], id⟩ sub).2 = none →
        fp ∈ (subtitlesGo env st acc l).1.files_to_delete) := by
  induction l with
  | nil =>
    intro st acc
    refine ⟨fun p hp => hp, fun p hp => Or.inl hp, fun x hx => hx, ?_, ?_⟩
    · intro lang sub sub' h
      exact absurd h (List.not_mem_nil _)
    · intro lang sub h
      exact absurd h (List.not_mem_nil _)
  | cons hd rest ih =>
    intro st acc
    obtain ⟨lang₀, sub₀⟩ := hd
    obtain ⟨hres, hmono, hfnd⟩ := processSub_spec env sub₀ st
    cases hp0 : (processSub env st sub₀).2 with
    | none =>
      have hstep : subtitlesGo env st acc ((lang₀, sub₀) :: rest) =
          subtitlesGo env (processSub env st sub₀).1 acc rest := by
        rw [subtitlesGo.eq_2, hp0]
      obtain ⟨i0, i1, i2, i3, i4⟩ := ih (processSub env st sub₀).1 acc
      rw [hstep]
      refine ⟨i0, ?_, ?_, ?_, ?_⟩
      · intro p hp
        rcases i1 p hp with h | ⟨sub, hmem, hne⟩
        · exact Or.inl h
        · exact Or.inr ⟨sub, List.mem_cons_of_mem _ hmem, hne⟩
      · intro x hx
        exact i2 x (hmono x hx)
      · intro lang sub sub' hmem hsome
        rcases List.mem_cons.mp hmem with heq | hmem'
        · cases heq
          rw [← hres, hp0] at hsome
          exact Option.noConfusion hsome
        · exact i3 lang sub sub' hmem' hsome
      · intro lang sub hmem fp hfp hfpne hnone
        rcases List.mem_cons.mp hmem with heq | hmem'
        · cases heq
          exact i2 fp (hfnd fp hfp hfpne hp0)
        · exact i4 lang sub hmem' fp hfp hfpne hnone
    | some sub₀' =>
      have hstep : subtitlesGo env st acc ((lang₀, sub₀) :: rest) =
          subtitlesGo env (processSub env st sub₀).1 (acc ++ [(lang₀, sub₀')]) rest := by
        rw [subtitlesGo.eq_2, hp0]
      obtain ⟨i0, i1, i2, i3, i4⟩ := ih (processSub env st sub₀).1 (acc ++ [(lang₀, sub₀')])
      rw [hstep]
      refine ⟨?_, ?_, ?_, ?_, ?_⟩
      · intro p hp
        exact i0 p (List.mem_append.mpr (Or.inl hp))
      · intro p hp
        rcases i1 p hp with h | ⟨sub, hmem, hne⟩
        · rcases List.mem_append.mp h with h' | h'
          · exact Or.inl h'
          · rcases List.mem_singleton.mp h' with rfl
            refine Or.inr ⟨sub₀, List.mem_cons_self _ _, ?_⟩
            rw [← hres, hp0]
            exact fun h => Option.noConfusion h
        · exact Or.inr ⟨sub, List.mem_cons_of_mem _ hmem, hne⟩
      · intro x hx
        exact i2 x (hmono x hx)
      · intro lang sub sub' hmem hsome
        rcases List.mem_cons.mp hmem with heq | hmem'
        · cases heq
          rw [← hres, hp0] at hsome
          cases hsome
          exact i0 _ (List.mem_append.mpr (Or.inr (List.mem_singleton.mpr rfl)))
        · exact i3 lang sub sub' hmem' hsome
      · intro lang sub hmem fp hfp hfpne hnone
        rcases List.mem_cons.mp hmem with heq | hmem'
        · cases heq
          rw [← hres, hp0] at hnone
          exact Option.noConfusion hnone
        · exact i4 lang sub hmem' fp hfp hfpne hnone

/-- Helper: in an association list with distinct keys, a key determines
its value. -/
theorem nodup_keys_eq {α β : Type} (l : List (α × β))
    (h : (l.map Prod.fst).Nodup) (a : α) (b b' : β)
    (h1 : (a, b) ∈ l) (h2 : (a, b') ∈ l) : b = b' := by
  induction l with
  | nil => exact absurd h1 (List.not_mem_nil _)
  | cons hd tl ih =>
    rw [List.map_cons, List.nodup_cons] at h
    rcases List.mem_cons.mp h1 with heq1 | h1'
    · rcases List.mem_cons.mp h2 with heq2 | h2'
      · rw [← heq1] at heq2
        exact (Prod.mk.injEq _ _ _ _ ▸ heq2.symm).2
      · exfalso
        apply h.1
        have hfst : hd.1 = a := by rw [← heq1]
        rw [hfst]
        exact List.mem_map_of_mem Prod.fst h2'
    · rcases List.mem_cons.mp h2 with heq2 | h2'
      · exfalso
        apply h.1
        have hfst : hd.1 = a := by rw [← heq2]
        rw [hfst]
        exact List.mem_map_of_mem Prod.fst h1'
      · exact ih h.2 h1' h2'

/-- C6: the Subtitle Normalization Pipeline is total — it always returns
the surviving-track list plus the files-to-delete list (by construction
of `subtitles_run`), every surviving track stems from an input track, and
every usable input track either survives or is dropped with its original
file scheduled for deletion; in particular a track on which the internal
XML conversion or the transcoder fails is dropped (its language absent
from the output) and its file is scheduled for deletion, and the
per-track failure never aborts the other tracks. -/
theorem c6_subtitles_no_failure (env : SubEnv) (subs : List (String × SubInfo))
    (hnodup : (subs.map Prod.fst).Nodup) :
    (∀ p ∈ (subtitles_run env subs).2, ∃ sub, (p.1, sub) ∈ subs) ∧
    (∀ lang sub, (lang, sub) ∈ subs → ∀ fp, sub.filepath = some fp → fp ≠ "" →
      (∃ sub', (lang, sub') ∈ (subtitles_run env subs).2) ∨
        fp ∈ (subtitles_run env subs).1) ∧
    (∀ lang sub, (lang, sub) ∈ subs → ∀ fp, sub.filepath = some fp → fp ≠ "" →
      (processSub env ⟨[], id⟩ sub).2 = none →
      lang ∉ (subtitles_run env subs).2.map Prod.fst ∧
        fp ∈ (subtitles_run env subs).1) := by
  obtain ⟨i0, i1, i2, i3, i4⟩ := subtitlesGo_spec env subs ⟨[], id⟩ []
  refine ⟨?_, ?_, ?_⟩
  · intro p hp
    rcases i1 p hp with h | ⟨sub, hm, -⟩
    · exact absurd h (List.not_mem_nil _)
    · exact ⟨sub, hm⟩
  · intro lang sub hmem fp hfp hfpne
    cases hres : (processSub env ⟨[], id⟩ sub).2 with
    | some sub' => exact Or.inl ⟨sub', i3 lang sub sub' hmem hres⟩
    | none => exact Or.inr (i4 lang sub hmem fp hfp hfpne hres)
  · intro lang sub hmem fp hfp hfpne hnone
    refine ⟨?_, i4 lang sub hmem fp hfp hfpne hnone⟩
    intro hmem'
    obtain ⟨p, hp, hfst⟩ := List.mem_map.mp hmem'
    rcases i1 p hp with h | ⟨sub'', hm'', hne''⟩
    · exact absurd h (List.not_mem_nil _)
    · rw [hfst] at hm''
      rw [nodup_keys_eq subs hnodup lang sub sub'' hmem hm''] at hnone
      exact hne'' hnone

/-- Witness for C6: one usable track on which the transcoder fails is
dropped, with its file scheduled for deletion, and the pipeline still
returns. -/
theorem c6_subtitles_no_failure_witness :
    ("en" ∉ (subtitles_run ⟨fun _ => "", fun _ => none, fun _ _ => false⟩
      [("en", ⟨"srt", some "f.srt"⟩)]).2.map Prod.fst) ∧
    "f.srt" ∈ (subtitles_run ⟨fun _ => "", fun _ => none, fun _ _ => false⟩
      [("en", ⟨"srt", some "f.srt"⟩)]).1 := by
  have h := (c6_subtitles_no_failure ⟨fun _ => "", fun _ => none, fun _ _ => false⟩
    [("en", ⟨"srt", some "f.srt"⟩)] (by decide)).2.2 "en" ⟨"srt", some "f.srt"⟩
    (by decide) "f.srt" rfl (by decide) (by decide)
  exact h

/-- Helper: a direct (`'all'`/equality) verdict of the inner
requested-tag scan means such a tag is present. -/
theorem scanRequested_some_none (skip keys : List String) (lang : String)
    (reqs : List String) (h : scanRequested skip keys lang reqs = some none) :
    ∃ r ∈ reqs, r = "all" ∨ r = lang := by
  induction reqs with
  | nil => exact absurd h (by simp [scanRequested])
  | cons r rs ih =>
    by_cases hd : r = "all" ∨ r = lang
    · exact ⟨r, List.mem_cons_self _ _, hd⟩
    · by_cases ht : (r ++ "-").data.isPrefixOf lang.data ∧ r ∉ skip ∧ r ∉ keys
      · rw [scanRequested, if_neg hd, if_pos ht] at h
        exact Option.noConfusion (Option.some.inj h)
      · rw [scanRequested, if_neg hd, if_neg ht] at h
        obtain ⟨r', hr', hor⟩ := ih h
        exact ⟨r', List.mem_cons_of_mem _ hr', hor⟩

/-- Helper: a translated-variant verdict of the inner scan implies the
rule's conditions for the consumed base. -/
theorem scanRequested_some_some (skip keys : List String) (lang : String)
    (reqs : List String) (r : String)
    (h : scanRequested skip keys lang reqs = some (some r)) :
    r ∈ reqs ∧ (r ++ "-").data.isPrefixOf lang.data ∧ r ∉ skip ∧ r ∉ keys := by
  induction reqs with
  | nil => exact absurd h (by simp [scanRequested])
  | cons r₀ rs ih =>
    by_cases hd : r₀ = "all" ∨ r₀ = lang
    · rw [scanRequested, if_pos hd] at h
      exact Option.noConfusion (Option.some.inj h)
    · by_cases ht : (r₀ ++ "-").data.isPrefixOf lang.data ∧ r₀ ∉ skip ∧ r₀ ∉ keys
      · rw [scanRequested, if_neg hd, if_pos ht] at h
        cases Option.some.inj (Option.some.inj h)
        exact ⟨List.mem_cons_self _ _, ht⟩
      · rw [scanRequested, if_neg hd, if_neg ht] at h
        obtain ⟨hr, hcond⟩ := ih h
        exact ⟨List.mem_cons_of_mem _ hr, hcond⟩

/-- Helper: with a direct candidate available the inner scan never
completes without a verdict. -/
theorem scanRequested_ne_none (skip keys : List String) (lang : String)
    (reqs : List String) (h : ∃ r ∈ reqs, r = "all" ∨ r = lang) :
    scanRequested skip keys lang reqs ≠ none := by
  induction reqs with
  | nil => obtain ⟨r, hr, -⟩ := h; exact absurd hr (List.not_mem_nil _)
  | cons r₀ rs ih =>
    by_cases hd : r₀ = "all" ∨ r₀ = lang
    · rw [scanRequested, if_pos hd]
      exact fun hc => Option.noConfusion hc
    · by_cases ht : (r₀ ++ "-").data.isPrefixOf lang.data ∧ r₀ ∉ skip ∧ r₀ ∉ keys
      · rw [scanRequested, if_neg hd, if_pos ht]
        exact fun hc => Option.noConfusion hc
      · rw [scanRequested, if_neg hd, if_neg ht]
        refine ih ?_
        obtain ⟨r, hr, hor⟩ := h
        rcases List.mem_cons.mp hr with rfl | hr'
        · exact absurd hor hd
        · exact ⟨r, hr', hor⟩

/-- Helper: accumulated entries persist through the reconciliation
loop. -/
theorem reconcileGo_acc_mono {α : Type} (requested keys : List String)
    (l : List (String × α)) :
    ∀ skip acc, ∀ e ∈ acc, e ∈ reconcileGo requested keys skip acc l := by
  induction l with
  | nil => exact fun skip acc e he => he
  | cons hd rest ih =>
    intro skip acc e he
    obtain ⟨lang, subs⟩ := hd
    rw [reconcileGo.eq_2]
    by_cases hin : lang ∈ skip
    · rw [if_pos hin]
      exact ih skip acc e he
    · rw [if_neg hin]
      cases hscan : scanRequested skip keys lang requested with
      | none => exact ih skip acc e he
      | some o =>
        cases o with
        | none => exact ih skip _ e (List.mem_append.mpr (Or.inl he))
        | some r => exact ih _ _ e (List.mem_append.mpr (Or.inl he))

/-- Helper: soundness of every entry the reconciliation loop emits. -/
theorem reconcileGo_sound {α : Type} (requested keys : List String)
    (l : List (String × α)) :
    ∀ skip acc, ∀ e ∈ reconcileGo requested keys skip acc l, e ∈ acc ∨
      ((e.1, e.2.1) ∈ l ∧ e.1 ∉ skip ∧
        (e.2.2 = none → ∃ r ∈ requested, r = "all" ∨ r = e.1) ∧
        (∀ r, e.2.2 = some r → r ∈ requested ∧
          (r ++ "-").data.isPrefixOf e.1.data ∧ r ∉ skip ∧ r ∉ keys)) := by
  induction l with
  | nil => exact fun skip acc e he => Or.inl he
  | cons hd rest ih =>
    intro skip acc e he
    obtain ⟨lang, subs⟩ := hd
    rw [reconcileGo.eq_2] at he
    by_cases hin : lang ∈ skip
    · rw [if_pos hin] at he
      rcases ih skip acc e he with h | ⟨hm, hn, hc⟩
      · exact Or.inl h
      · exact Or.inr ⟨List.mem_cons_of_mem _ hm, hn, hc⟩
    · rw [if_neg hin] at he
      cases hscan : scanRequested skip keys lang requested with
      | none =>
        rw [hscan] at he
        rcases ih skip acc e he with h | ⟨hm, hn, hc⟩
        · exact Or.inl h
        · exact Or.inr ⟨List.mem_cons_of_mem _ hm, hn, hc⟩
      | some o =>
        rw [hscan] at he
        cases o with
        | none =>
          rcases ih skip _ e he with h | ⟨hm, hn, hc⟩
          · rcases List.mem_append.mp h with h' | h'
            · exact Or.inl h'
            · rcases List.mem_singleton.mp h' with rfl
              refine Or.inr ⟨List.mem_cons_self _ _, hin, ?_, ?_⟩
              · intro _
                exact scanRequested_some_none skip keys lang requested hscan
              · intro r hr
                exact Option.noConfusion hr
          · exact Or.inr ⟨List.mem_cons_of_mem _ hm, hn, hc⟩
        | some r =>
          rcases ih _ _ e he with h | ⟨hm, hn, hc1, hc2⟩
          · rcases List.mem_append.mp h with h' | h'
            · exact Or.inl h'
            · rcases List.mem_singleton.mp h' with rfl
              refine Or.inr ⟨List.mem_cons_self _ _, hin, ?_, ?_⟩
              · intro hcontra
                exact Option.noConfusion hcontra
              · intro r' hr'
                cases Option.some.inj hr'
                exact scanRequested_some_some skip keys lang requested r hscan
          · refine Or.inr ⟨List.mem_cons_of_mem _ hm, ?_, hc1, ?_⟩
            · intro hcontra
              exact hn (List.mem_append.mpr (Or.inl hcontra))
            · intro r' hr'
              obtain ⟨h1, h2, h3, h4⟩ := hc2 r' hr'
              exact ⟨h1, h2, fun hc => h3 (List.mem_append.mpr (Or.inl hc)), h4⟩

/-- Helper: a caption language with no ordinary subtitle track that
directly matches a requested tag (or `'all'`) is always kept: the skip
set never absorbs caption keys beyond its initial contents. -/
theorem reconcileGo_direct_kept {α : Type} (requested keys : List String)
    (l : List (String × α)) :
    ∀ skip acc, ∀ lang subs, (lang, subs) ∈ l → lang ∉ skip → lang ∈ keys →
      (∃ r ∈ requested, r = "all" ∨ r = lang) →
      lang ∈ (reconcileGo requested keys skip acc l).map Prod.fst := by
  induction l with
  | nil => intro skip acc lang subs h; exact absurd h (List.not_mem_nil _)
  | cons hd rest ih =>
    intro skip acc lang subs hmem hnin hlk hdir
    obtain ⟨lang₀, subs₀⟩ := hd
    rw [reconcileGo.eq_2]
    rcases List.mem_cons.mp hmem with heq | hmem'
    · cases heq
      rw [if_neg hnin]
      cases hscan : scanRequested skip keys lang requested with
      | none => exact absurd hscan (scanRequested_ne_none skip keys lang requested hdir)
      | some o =>
        cases o with
        | none =>
          refine List.mem_map_of_mem Prod.fst
            (reconcileGo_acc_mono requested keys rest skip _ (lang, subs, none) ?_)
          exact List.mem_append.mpr (Or.inr (List.mem_singleton.mpr rfl))
        | some r =>
          refine List.mem_map_of_mem Prod.fst
            (reconcileGo_acc_mono requested keys rest _ _ (lang, subs, some r) ?_)
          exact List.mem_append.mpr (Or.inr (List.mem_singleton.mpr rfl))
    · by_cases hin : lang₀ ∈ skip
      · rw [if_pos hin]
        exact ih skip acc lang subs hmem' hnin hlk hdir
      · rw [if_neg hin]
        cases hscan : scanRequested skip keys lang₀ requested with
        | none => exact ih skip acc lang subs hmem' hnin hlk hdir
        | some o =>
          cases o with
          | none => exact ih skip _ lang subs hmem' hnin hlk hdir
          | some r =>
            refine ih _ _ lang subs hmem' ?_ hlk hdir
            intro hcontra
            rcases List.mem_append.mp hcontra with h | h
            · exact hnin h
            · rcases List.mem_singleton.mp h with rfl
              exact (scanRequested_some_some skip keys lang₀ requested lang hscan).2.2.2 hlk

/-- Helper: the bases consumed by translated-variant matches are pairwise
distinct (each base is added to the skip set when consumed). -/
theorem reconcileGo_consumed_nodup {α : Type} (requested keys : List String)
    (l : List (String × α)) :
    ∀ skip acc,
      ((acc.filterMap (fun x => x.2.2)).Nodup) →
      (∀ r ∈ acc.filterMap (fun x => x.2.2), r ∈ skip) →
      ((reconcileGo requested keys skip acc l).filterMap (fun x => x.2.2)).Nodup := by
  induction l with
  | nil => exact fun skip acc h _ => h
  | cons hd rest ih =>
    intro skip acc hnd hsub
    obtain ⟨lang₀, subs₀⟩ := hd
    rw [reconcileGo.eq_2]
    by_cases hin : lang₀ ∈ skip
    · rw [if_pos hin]
      exact ih skip acc hnd hsub
    · rw [if_neg hin]
      cases hscan : scanRequested skip keys lang₀ requested with
      | none => exact ih skip acc hnd hsub
      | some o =>
        cases o with
        | none =>
          refine ih skip _ ?_ ?_
          · simpa using hnd
          · simpa using hsub
        | some r =>
          have hr := scanRequested_some_some skip keys lang₀ requested r hscan
          refine ih (skip ++ [r]) _ ?_ ?_
          · rw [List.filterMap_append]
            simp only [List.filterMap_cons, List.filterMap_nil]
            refine List.Nodup.append hnd (by simp) ?_
            intro a ha hb
            rcases List.mem_singleton.mp hb with rfl
            exact hr.2.2.1 (hsub _ ha)
          · intro r' hr'
            rw [List.filterMap_append] at hr'
            rcases List.mem_append.mp hr' with h | h
            · exact List.mem_append.mpr (Or.inl (hsub r' h))
            · simp only [List.filterMap_cons, List.filterMap_nil,
                List.mem_singleton] at h
              subst h
              exact List.mem_append.mpr (Or.inr (List.mem_singleton.mpr rfl))

/-- C9 counterexample: `requested_automatic_subtitles` is a Python set
with arbitrary iteration order, and the outcome depends on it: with
captions `[en-US, en-GB]`, no ordinary subtitles, and requested tags
`{en, en-US}`, iteration order `[en, en-US]` lets `en-US` consume the
base `en` (dropping `en-GB`), while order `[en-US, en]` keeps both.  The
claim's order-independent keep condition says `en-GB` is kept (`en-US`
is satisfied directly, so `en` is not consumed by an earlier translated
variant), contradicting the first order. -/
theorem c9_counterexample :
    new_automatic_captions (α := ℕ) ["en", "en-US"] [] [("en-US", 1), ("en-GB", 2)] =
      [("en-US", 1)] ∧
    new_automatic_captions (α := ℕ) ["en-US", "en"] [] [("en-US", 1), ("en-GB", 2)] =
      [("en-US", 1), ("en-GB", 2)] ∧
    specKeptLangs (α := ℕ) ["en", "en-US"] [] [("en-US", 1), ("en-GB", 2)] =
      ["en-US", "en-GB"] ∧
    ("en-GB" ∈ specKeptLangs (α := ℕ) ["en", "en-US"] [] [("en-US", 1), ("en-GB", 2)]) ∧
    ("en-GB" ∉ (new_automatic_captions (α := ℕ) ["en", "en-US"] []
      [("en-US", 1), ("en-GB", 2)]).map Prod.fst) := by
  exact ⟨by decide, by decide, by decide, by decide, by decide⟩

/-- C9 amended: for each concrete iteration order of the requested-tag
set: every kept automatic caption track comes from the input, has no
ordinary subtitle track, and was kept either through a direct (`'all'`/
equality) match or through the translated-variant rule for a base `xx`
that is requested, prefixes the tag, has no ordinary subtitle track, and
has no automatic caption track; every caption language with no ordinary
subtitle track that directly matches a requested tag is kept; and at
most one variant is kept via the translated rule per base tag. -/
theorem c9_amended {α : Type} (requested subtitleLangs : List String)
    (captions : List (String × α)) :
    (∀ e ∈ reconcile_automatic_captions requested subtitleLangs captions,
      (e.1, e.2.1) ∈ captions ∧ e.1 ∉ subtitleLangs ∧
      (e.2.2 = none → ∃ r ∈ requested, r = "all" ∨ r = e.1) ∧
      (∀ r, e.2.2 = some r → r ∈ requested ∧
        (r ++ "-").data.isPrefixOf e.1.data ∧ r ∉ subtitleLangs ∧
        r ∉ captions.map Prod.fst)) ∧
    (∀ lang subs, (lang, subs) ∈ captions → lang ∉ subtitleLangs →
      (∃ r ∈ requested, r = "all" ∨ r = lang) →
      lang ∈ (new_automatic_captions requested subtitleLangs captions).map Prod.fst) ∧
    ((reconcile_automatic_captions requested subtitleLangs captions).filterMap
      (fun x => x.2.2)).Nodup := by
  refine ⟨?_, ?_, ?_⟩
  · intro e he
    rcases reconcileGo_sound requested (captions.map Prod.fst) captions
        subtitleLangs [] e he with h | ⟨hm, hn, hc1, hc2⟩
    · exact absurd h (List.not_mem_nil _)
    · exact ⟨hm, hn, hc1, hc2⟩
  · intro lang subs hmem hnin hdir
    have h := reconcileGo_direct_kept requested (captions.map Prod.fst) captions
      subtitleLangs [] lang subs hmem hnin (List.mem_map_of_mem Prod.fst hmem) hdir
    unfold new_automatic_captions
    rw [List.map_map]
    exact h
  · exact reconcileGo_consumed_nodup requested (captions.map Prod.fst) captions
      subtitleLangs [] (by simp) (by simp)

/-- Witness for C9 (amended): a directly requested caption language is
kept. -/
theorem c9_amended_witness :
    "fr" ∈ (new_automatic_captions (α := ℕ) ["all"] [] [("fr", 0)]).map Prod.fst :=
  (c9_amended ["all"] [] [("fr", 0)]).2.1 "fr" 0 (by decide) (by decide)
    ⟨"all", by decide, Or.inl rfl⟩

/-! Lemmas for the WEBVTT collapse (C8). -/

/-- Helper: `blanksAux` consumes at most the whole list. -/
theorem blanksAux_le (l : List Char) :
    ∀ acc sp, blanksAux acc sp l ≤ acc + sp + l.length := by
  induction l with
  | nil => intro acc sp; simp [blanksAux]
  | cons c rest ih =>
    intro acc sp
    rw [blanksAux]
    by_cases hsp : c = ' '
    · rw [if_pos hsp]
      have := ih acc (sp + 1)
      simp only [List.length_cons]
      omega
    · rw [if_neg hsp]
      by_cases hnl : c = '\n'
      · rw [if_pos hnl]
        by_cases hone : 1 ≤ sp
        · rw [if_pos hone]
          have := ih (acc + sp + 1) 0
          simp only [List.length_cons]
          omega
        · rw [if_neg hone]
          simp only [List.length_cons]
          omega
      · rw [if_neg hnl]
        simp only [List.length_cons]
        omega

/-- Helper: `blanks` consumes at most the whole list. -/
theorem blanks_le (l : List Char) : blanks l ≤ l.length := by
  have := blanksAux_le l 0 0
  simpa [blanks] using this

/-- Helper: the timestamp character class excludes newlines and
spaces. -/
theorem tsChar_ne_nl {c : Char} (h : tsChar c = true) : c ≠ '\n' := by
  intro rfl'
  subst rfl'
  exact absurd h (by decide)

/-- Helper: `countLeading` over a run of class characters followed by a
non-class character. -/
theorem countLeading_append (p : Char → Bool) (d z : List Char)
    (hd : ∀ c ∈ d, p c = true)
    (hz : ∀ x, z.head? = some x → p x = false) :
    countLeading p (d ++ z) = d.length := by
  induction d with
  | nil =>
    cases z with
    | nil => rfl
    | cons x z' =>
      have hx := hz x rfl
      show (List.takeWhile p (x :: z')).length = 0
      rw [List.takeWhile_cons_of_neg (by simp [hx])]
      rfl
  | cons c d' ih =>
    have hc := hd c (List.mem_cons_self _ _)
    have ih' := ih (fun c' hc' => hd c' (List.mem_cons_of_mem _ hc'))
    show (List.takeWhile p (c :: (d' ++ z))).length = d'.length + 1
    rw [List.takeWhile_cons_of_pos hc, List.length_cons]
    exact congrArg (· + 1) ih' 


/-- Helper: dropping the greedy munch leaves the `dropWhile`. -/
theorem drop_countLeading (p : Char → Bool) (l : List Char) :
    l.drop (countLeading p l) = l.dropWhile p := by
  induction l with
  | nil => rfl
  | cons c rest ih =>
    by_cases hc : p c = true
    · simp only [countLeading, List.takeWhile, hc, List.dropWhile,
        List.length_cons, List.drop_succ_cons]
      simp only [countLeading] at ih
      exact ih
    · simp only [countLeading, List.takeWhile, List.dropWhile] at *
      rw [Bool.not_eq_true] at hc
      simp [hc]

/-- Helper: full structural description of a successful `tryMatch`. -/
theorem tryMatch_shape (l : List Char) (t g : ℕ)
    (h : tryMatch l = some (t, g)) :
    ∃ d1 d2 r, l = d1 ++ arrowSep ++ d2 ++ '\n' :: '\n' :: r ∧
      d1 ≠ [] ∧ d2 ≠ [] ∧
      (∀ c ∈ d1, tsChar c = true) ∧ (∀ c ∈ d2, tsChar c = true) ∧
      g = d1.length + 5 + d2.length + 1 ∧ t = g + 1 + blanks r := by
  unfold tryMatch at h
  by_cases h1 : countLeading tsChar l = 0
  · rw [if_pos h1] at h
    exact Option.noConfusion h
  · rw [if_neg h1] at h
    by_cases h2 : arrowSep.isPrefixOf (l.drop (countLeading tsChar l)) = true
    · rw [if_pos h2] at h
      by_cases h3 : countLeading tsChar
          ((l.drop (countLeading tsChar l)).drop 5) = 0
      · rw [if_pos h3] at h
        exact Option.noConfusion h
      · rw [if_neg h3] at h
        split at h
        · rename_i l4 heq
          have hpair := Option.some.inj h
          rw [Prod.mk.injEq] at hpair
          obtain ⟨ht, hg⟩ := hpair
          -- the leading munch
          have hsplit1 : l = l.takeWhile tsChar ++ l.drop (countLeading tsChar l) := by
            rw [drop_countLeading]
            exact (List.takeWhile_append_dropWhile tsChar l).symm
          -- the arrow separator
          obtain ⟨w, hw⟩ := List.isPrefixOf_iff_prefix.mp h2
          have hl2 : (l.drop (countLeading tsChar l)).drop 5 = w := by
            rw [← hw]
            have : (5 : ℕ) = arrowSep.length := rfl
            rw [this, List.drop_left]
          -- the second munch
          have hsplit2 : w = w.takeWhile tsChar ++ ('\n' :: '\n' :: l4) := by
            conv_lhs => rw [← List.takeWhile_append_dropWhile (p := tsChar) (l := w)]
            rw [← drop_countLeading]
            rw [← hl2, heq]
          refine ⟨l.takeWhile tsChar, w.takeWhile tsChar, l4, ?_, ?_, ?_, ?_, ?_, ?_, ?_⟩
          · conv_lhs => rw [hsplit1, ← hw, hsplit2]
            simp [List.append_assoc]
          · intro hnil
            apply h1
            show (l.takeWhile tsChar).length = 0
            rw [hnil]
            rfl
          · intro hnil
            apply h3
            rw [hl2]
            show (w.takeWhile tsChar).length = 0
            rw [hnil]
            rfl
          · exact fun c hc => List.mem_takeWhile_imp hc
          · exact fun c hc => List.mem_takeWhile_imp hc
          · have e1 : countLeading tsChar l = (l.takeWhile tsChar).length := rfl
            have e2 : countLeading tsChar ((l.drop (countLeading tsChar l)).drop 5) =
                (w.takeWhile tsChar).length := by rw [hl2]; rfl
            omega
          · omega
        · exact Option.noConfusion h
    · rw [if_neg h2] at h
      exact Option.noConfusion h

/-- Helper: the arrow separator contains no newline. -/
theorem arrowSep_no_nl : ∀ x ∈ arrowSep, x ≠ '\n' := by decide

/-- Helper: `goC` on the empty list. -/
theorem goC_nil (p2 p1 : Option Char) (k : ℕ) : goC p2 p1 k [] = [] := rfl

/-- Helper: `goC` while skipping an already-replaced region. -/
theorem goC_cons_skip (p2 p1 : Option Char) (n : ℕ) (c : Char)
    (cs : List Char) : goC p2 p1 (n + 1) (c :: cs) = goC p1 (some c) n cs :=
  rfl

/-- Helper: `goC` when the lookbehind fails. -/
theorem goC_cons_disabled (p2 p1 : Option Char) (c : Char) (cs : List Char)
    (h : enabledCtx p2 p1 = false) :
    goC p2 p1 0 (c :: cs) = c :: goC p1 (some c) 0 cs := by
  rw [goC]
  simp [h]

/-- Helper: `goC` when the pattern body does not match. -/
theorem goC_cons_none (p2 p1 : Option Char) (c : Char) (cs : List Char)
    (h : tryMatch (c :: cs) = none) :
    goC p2 p1 0 (c :: cs) = c :: goC p1 (some c) 0 cs := by
  rw [goC]
  by_cases hE : enabledCtx p2 p1 = true
  · simp [hE, h]
  · simp [hE]

/-- Helper: `goC` at a successful match. -/
theorem goC_cons_match (p2 p1 : Option Char) (c : Char) (cs : List Char)
    (t g : ℕ) (hE : enabledCtx p2 p1 = true)
    (h : tryMatch (c :: cs) = some (t, g)) :
    goC p2 p1 0 (c :: cs) =
      (c :: cs).take g ++ goC p1 (some c) (t - 1) cs := by
  rw [goC]
  simp [hE, h]

/-- Helper: `noProb` on the empty list. -/
theorem noProb_nil (p2 p1 : Option Char) (k : ℕ) :
    noProb p2 p1 k [] = true := rfl

/-- Helper: `noProb` while skipping. -/
theorem noProb_cons_skip (p2 p1 : Option Char) (n : ℕ) (c : Char)
    (cs : List Char) :
    noProb p2 p1 (n + 1) (c :: cs) = noProb p1 (some c) n cs := rfl

/-- Helper: `noProb` when the lookbehind fails. -/
theorem noProb_cons_disabled (p2 p1 : Option Char) (c : Char)
    (cs : List Char) (h : enabledCtx p2 p1 = false) :
    noProb p2 p1 0 (c :: cs) = noProb p1 (some c) 0 cs := by
  rw [noProb]
  simp [h]

/-- Helper: `noProb` when the pattern body does not match. -/
theorem noProb_cons_none (p2 p1 : Option Char) (c : Char) (cs : List Char)
    (h : tryMatch (c :: cs) = none) :
    noProb p2 p1 0 (c :: cs) = noProb p1 (some c) 0 cs := by
  rw [noProb]
  by_cases hE : enabledCtx p2 p1 = true
  · simp [hE, h]
  · simp [hE]

/-- Helper: `noProb` at a successful match. -/
theorem noProb_cons_match (p2 p1 : Option Char) (c : Char) (cs : List Char)
    (t g : ℕ) (hE : enabledCtx p2 p1 = true)
    (h : tryMatch (c :: cs) = some (t, g)) :
    noProb p2 p1 0 (c :: cs) = true ↔
      ((c :: cs).drop t).head? ≠ some '\n' ∧
        noProb p1 (some c) (t - 1) cs = true := by
  rw [noProb]
  simp [hE, h]

/-- Helper: the scanning context after no characters. -/
theorem ctxAfter_nil (ctx : Option Char × Option Char) :
    ctxAfter ctx [] = ctx := rfl

/-- Helper: the scanning context after one more character. -/
theorem ctxAfter_cons (ctx : Option Char × Option Char) (c : Char)
    (l : List Char) : ctxAfter ctx (c :: l) = ctxAfter (ctx.2, some c) l :=
  rfl

/-- Helper: the scanning context is computed left to right. -/
theorem ctxAfter_append (ctx : Option Char × Option Char) (u v : List Char) :
    ctxAfter ctx (u ++ v) = ctxAfter (ctxAfter ctx u) v := by
  simp [ctxAfter]

/-- Helper: the scanning context after a list is its last two
characters. -/
theorem ctxAfter_pair (ctx : Option Char × Option Char) (A : List Char)
    (x y : Char) : ctxAfter ctx (A ++ [x, y]) = (some x, some y) := by
  rw [ctxAfter_append]
  rfl

/-- Helper: skipping `n` characters is scanning from the dropped list with
the context advanced over the skipped characters. -/
theorem goC_skip : ∀ (l : List Char) (p2 p1 : Option Char) (n : ℕ),
    goC p2 p1 n l =
      goC (ctxAfter (p2, p1) (l.take n)).1 (ctxAfter (p2, p1) (l.take n)).2
        0 (l.drop n) := by
  intro l
  induction l with
  | nil =>
    intro p2 p1 n
    simp [goC_nil]
  | cons c cs ih =>
    intro p2 p1 n
    cases n with
    | zero => rfl
    | succ m =>
      rw [goC_cons_skip, ih]
      simp [List.take_succ_cons, List.drop_succ_cons, ctxAfter_cons]

/-- Helper: the same skip normalization for the checker `noProb`. -/
theorem noProb_skip : ∀ (l : List Char) (p2 p1 : Option Char) (n : ℕ),
    noProb p2 p1 n l =
      noProb (ctxAfter (p2, p1) (l.take n)).1
        (ctxAfter (p2, p1) (l.take n)).2 0 (l.drop n) := by
  intro l
  induction l with
  | nil =>
    intro p2 p1 n
    simp [noProb_nil]
  | cons c cs ih =>
    intro p2 p1 n
    cases n with
    | zero => rfl
    | succ m =>
      rw [noProb_cons_skip, ih]
      simp [List.take_succ_cons, List.drop_succ_cons, ctxAfter_cons]

/-- Helper: bounds extracted from a successful `tryMatch`. -/
theorem tryMatch_bounds (l : List Char) (t g : ℕ)
    (h : tryMatch l = some (t, g)) :
    1 ≤ g ∧ g + 1 ≤ t ∧ t ≤ l.length := by
  obtain ⟨d1, d2, r, hl, h1, h2, -, -, hg, ht⟩ := tryMatch_shape l t g h
  have hb := blanks_le r
  have hlen : l.length = d1.length + 5 + d2.length + (2 + r.length) := by
    rw [hl]
    simp [arrowSep]
    omega
  have hd1 : 1 ≤ d1.length := List.length_pos.mpr h1
  omega

/-- Helper: the scan never changes the first character. -/
theorem head_goC (l : List Char) (p2 p1 : Option Char) :
    (goC p2 p1 0 l).head? = l.head? := by
  cases l with
  | nil => rfl
  | cons c cs =>
    by_cases hE : enabledCtx p2 p1 = true
    · cases hM : tryMatch (c :: cs) with
      | none => rw [goC_cons_none p2 p1 c cs hM]; rfl
      | some tg =>
        obtain ⟨t, g⟩ := tg
        rw [goC_cons_match p2 p1 c cs t g hE hM]
        obtain ⟨hg, -, -⟩ := tryMatch_bounds _ _ _ hM
        cases g with
        | zero => omega
        | succ g' => rfl
    · rw [goC_cons_disabled p2 p1 c cs (by simpa using hE)]; rfl

/-- Helper: taking group 1 out of the matched shape. -/
theorem take_group (Q r : List Char) (g : ℕ) (hg : g = Q.length + 1) :
    (Q ++ '\n' :: '\n' :: r).take g = Q ++ ['\n'] := by
  subst hg
  rw [List.take_append_eq_append_take, List.take_of_length_le (Nat.le_succ _)]
  congr 1
  have h1 : Q.length + 1 - Q.length = 1 := by omega
  rw [h1]
  rfl

/-- Helper: the pattern body does match a well-shaped timestamp line
followed by a broken blank line. -/
theorem tryMatch_of_shape (d1 d2 r : List Char)
    (h1 : d1 ≠ []) (h2 : d2 ≠ [])
    (hd1 : ∀ c ∈ d1, tsChar c = true) (hd2 : ∀ c ∈ d2, tsChar c = true) :
    tryMatch (d1 ++ arrowSep ++ d2 ++ '\n' :: '\n' :: r) =
      some (d1.length + 5 + d2.length + 1 + 1 + blanks r,
        d1.length + 5 + d2.length + 1) := by
  have hflat : d1 ++ arrowSep ++ d2 ++ '\n' :: '\n' :: r =
      d1 ++ (arrowSep ++ (d2 ++ '\n' :: '\n' :: r)) := by
    simp [List.append_assoc]
  rw [hflat]
  have hc1 : countLeading tsChar
      (d1 ++ (arrowSep ++ (d2 ++ '\n' :: '\n' :: r))) = d1.length := by
    refine countLeading_append tsChar d1 _ hd1 (fun x hx => ?_)
    simp only [arrowSep, List.cons_append, List.head?_cons,
      Option.some.injEq] at hx
    rw [← hx]
    decide
  have hdrop1 : (d1 ++ (arrowSep ++ (d2 ++ '\n' :: '\n' :: r))).drop
      d1.length = arrowSep ++ (d2 ++ '\n' :: '\n' :: r) :=
    List.drop_left d1 _
  have hpref : arrowSep.isPrefixOf
      (arrowSep ++ (d2 ++ '\n' :: '\n' :: r)) = true :=
    List.isPrefixOf_iff_prefix.mpr ⟨_, rfl⟩
  have hdrop2 : (arrowSep ++ (d2 ++ '\n' :: '\n' :: r)).drop 5 =
      d2 ++ '\n' :: '\n' :: r := by
    have h5 : (5 : ℕ) = arrowSep.length := rfl
    rw [h5]
    exact List.drop_left _ _
  have hc2 : countLeading tsChar (d2 ++ '\n' :: '\n' :: r) = d2.length := by
    refine countLeading_append tsChar d2 _ hd2 (fun x hx => ?_)
    simp only [List.head?_cons, Option.some.injEq] at hx
    rw [← hx]
    decide
  have hdrop3 : (d2 ++ '\n' :: '\n' :: r).drop d2.length =
      '\n' :: '\n' :: r := List.drop_left d2 _
  unfold tryMatch
  rw [hc1, if_neg (fun h => h1 (List.eq_nil_of_length_eq_zero h))]
  rw [hdrop1, if_pos hpref, hdrop2, hc2]
  rw [if_neg (fun h => h2 (List.eq_nil_of_length_eq_zero h))]
  rw [hdrop3]
  split
  · rename_i l4 heq
    simp only [List.cons.injEq, true_and] at heq
    rw [← heq]
  · rename_i hne
    exact absurd rfl (hne r)

/-- Helper: the pattern body does not match when the timestamp line is
followed by a single newline and then a non-newline. -/
theorem tryMatch_none_single_nl (d1 d2 z : List Char)
    (h1 : d1 ≠ []) (h2 : d2 ≠ [])
    (hd1 : ∀ c ∈ d1, tsChar c = true) (hd2 : ∀ c ∈ d2, tsChar c = true)
    (hz : ∀ x, z.head? = some x → x ≠ '\n') :
    tryMatch (d1 ++ arrowSep ++ d2 ++ '\n' :: z) = none := by
  have hflat : d1 ++ arrowSep ++ d2 ++ '\n' :: z =
      d1 ++ (arrowSep ++ (d2 ++ '\n' :: z)) := by
    simp [List.append_assoc]
  rw [hflat]
  have hc1 : countLeading tsChar
      (d1 ++ (arrowSep ++ (d2 ++ '\n' :: z))) = d1.length := by
    refine countLeading_append tsChar d1 _ hd1 (fun x hx => ?_)
    simp only [arrowSep, List.cons_append, List.head?_cons,
      Option.some.injEq] at hx
    rw [← hx]
    decide
  have hdrop1 : (d1 ++ (arrowSep ++ (d2 ++ '\n' :: z))).drop d1.length =
      arrowSep ++ (d2 ++ '\n' :: z) := List.drop_left d1 _
  have hpref : arrowSep.isPrefixOf (arrowSep ++ (d2 ++ '\n' :: z)) = true :=
    List.isPrefixOf_iff_prefix.mpr ⟨_, rfl⟩
  have hdrop2 : (arrowSep ++ (d2 ++ '\n' :: z)).drop 5 = d2 ++ '\n' :: z := by
    have h5 : (5 : ℕ) = arrowSep.length := rfl
    rw [h5]
    exact List.drop_left _ _
  have hc2 : countLeading tsChar (d2 ++ '\n' :: z) = d2.length := by
    refine countLeading_append tsChar d2 _ hd2 (fun x hx => ?_)
    simp only [List.head?_cons, Option.some.injEq] at hx
    rw [← hx]
    decide
  have hdrop3 : (d2 ++ '\n' :: z).drop d2.length = '\n' :: z :=
    List.drop_left d2 _
  unfold tryMatch
  rw [hc1, if_neg (fun h => h1 (List.eq_nil_of_length_eq_zero h))]
  rw [hdrop1, if_pos hpref, hdrop2, hc2]
  rw [if_neg (fun h => h2 (List.eq_nil_of_length_eq_zero h))]
  rw [hdrop3]
  split
  · rename_i l4 heq
    simp only [List.cons.injEq, true_and] at heq
    exact absurd rfl (hz '\n' (by rw [heq]; rfl))
  · rfl

/-- Helper: a newline-free nonempty run followed by one closing character
never has two adjacent newlines. -/
theorem chainOk_snoc : ∀ (z : List Char) (y : Char) (p1 : Option Char),
    (∀ c ∈ z, c ≠ '\n') → z ≠ [] → chainOk p1 (z ++ [y]) = true := by
  intro z
  induction z with
  | nil => intro y p1 _ hne; exact absurd rfl hne
  | cons c z' ih =>
    intro y p1 hz _
    have hc := hz c (List.mem_cons_self _ _)
    cases z' with
    | nil => simp [chainOk, hc]
    | cons d z'' =>
      have hrec := ih y (some c) (fun a ha => hz a (List.mem_cons_of_mem _ ha))
        (List.cons_ne_nil d z'')
      simp only [List.cons_append] at hrec ⊢
      rw [chainOk, hrec]
      simp [hc]

/-- Helper: the scan copies a segment verbatim when the lookbehind can
fire nowhere in it (and the head position does not match). -/
theorem goC_through : ∀ (z : List Char) (p2 p1 : Option Char) (K : List Char),
    chainOk p1 z = true →
    (enabledCtx p2 p1 = true → tryMatch (z ++ K) = none ∨ z = []) →
    goC p2 p1 0 (z ++ K) =
      z ++ goC (ctxAfter (p2, p1) z).1 (ctxAfter (p2, p1) z).2 0 K := by
  intro z
  induction z with
  | nil =>
    intro p2 p1 K _ _
    simp [ctxAfter_nil]
  | cons c z' ih =>
    intro p2 p1 K hchain h0
    simp only [List.cons_append]
    simp only [chainOk, Bool.and_eq_true] at hchain
    obtain ⟨hch1, hch2⟩ := hchain
    have hcond : enabledCtx p1 (some c) = true →
        tryMatch (z' ++ K) = none ∨ z' = [] := by
      intro hEE
      exfalso
      simp only [enabledCtx, Bool.and_eq_true, decide_eq_true_eq,
        Option.some.injEq] at hEE
      obtain ⟨hp, hcnl⟩ := hEE
      rw [hp, hcnl] at hch1
      simp at hch1
    by_cases hE : enabledCtx p2 p1 = true
    · rcases h0 hE with hnone | habs
      · rw [goC_cons_none p2 p1 c (z' ++ K) hnone]
        rw [ih p1 (some c) K hch2 hcond]
        rfl
      · exact absurd habs (List.cons_ne_nil c z')
    · rw [goC_cons_disabled p2 p1 c (z' ++ K) (by simpa using hE)]
      rw [ih p1 (some c) K hch2 hcond]
      rfl

/-- Helper: the output of a clean scan is either the input itself or
splits at the first match, with the character after the matched region
known (from `noProb`) not to be a further newline. -/
theorem goC_decomp : ∀ (l : List Char) (p2 p1 : Option Char),
    noProb p2 p1 0 l = true →
    goC p2 p1 0 l = l ∨
    ∃ u rest t g T,
      l = u ++ rest ∧ tryMatch rest = some (t, g) ∧
      goC p2 p1 0 l = u ++ rest.take g ++ T ∧
      T.head? = (rest.drop t).head? ∧ (rest.drop t).head? ≠ some '\n' := by
  intro l
  induction l with
  | nil => intro p2 p1 _; left; rfl
  | cons c cs ih =>
    intro p2 p1 hnp
    by_cases hE : enabledCtx p2 p1 = true
    · cases hM : tryMatch (c :: cs) with
      | none =>
        rw [goC_cons_none p2 p1 c cs hM]
        have hnp' : noProb p1 (some c) 0 cs = true := by
          rw [noProb_cons_none p2 p1 c cs hM] at hnp; exact hnp
        rcases ih p1 (some c) hnp' with hid |
          ⟨u, rest, t, g, T, hcs, hm, hout, hhead, hnl⟩
        · left; rw [hid]
        · right
          refine ⟨c :: u, rest, t, g, T, ?_, hm, ?_, hhead, hnl⟩
          · rw [hcs]; rfl
          · rw [hout]; rfl
      | some tg =>
        obtain ⟨t, g⟩ := tg
        right
        obtain ⟨hg1, hgt, htlen⟩ := tryMatch_bounds _ _ _ hM
        obtain ⟨t', rfl⟩ : ∃ t', t = t' + 1 := ⟨t - 1, by omega⟩
        obtain ⟨hhead, hnpc⟩ :=
          (noProb_cons_match p2 p1 c cs (t' + 1) g hE hM).mp hnp
        refine ⟨[], c :: cs, t' + 1, g, goC p1 (some c) t' cs, rfl, hM,
          ?_, ?_, hhead⟩
        · rw [goC_cons_match p2 p1 c cs (t' + 1) g hE hM]
          simp [Nat.add_sub_cancel]
        · rw [goC_skip cs p1 (some c) t', head_goC, List.drop_succ_cons]
    · rw [goC_cons_disabled p2 p1 c cs (by simpa using hE)]
      have hnp' : noProb p1 (some c) 0 cs = true := by
        rw [noProb_cons_disabled p2 p1 c cs (by simpa using hE)] at hnp
        exact hnp
      rcases ih p1 (some c) hnp' with hid |
        ⟨u, rest, t, g, T, hcs, hm, hout, hhead, hnl⟩
      · left; rw [hid]
      · right
        refine ⟨c :: u, rest, t, g, T, ?_, hm, ?_, hhead, hnl⟩
        · rw [hcs]; rfl
        · rw [hout]; rfl

/-- Helper: cleaning the tail never creates a match at a position where
the original text had none. -/
theorem tryMatch_goC_none (cs : List Char) (c : Char) (p1 : Option Char)
    (hM : tryMatch (c :: cs) = none)
    (hnp : noProb p1 (some c) 0 cs = true) :
    tryMatch (c :: goC p1 (some c) 0 cs) = none := by
  cases hout : tryMatch (c :: goC p1 (some c) 0 cs) with
  | none => rfl
  | some tg =>
    exfalso
    obtain ⟨t, g⟩ := tg
    rcases goC_decomp cs p1 (some c) hnp with hid |
      ⟨u, rest, t', g', T, hcs, hm, hI, hThead, hTnl⟩
    · rw [hid, hM] at hout
      exact Option.noConfusion hout
    · obtain ⟨D1, D2, R, hP, hD1ne, hD2ne, hD1, hD2, -, -⟩ :=
        tryMatch_shape _ _ _ hout
      obtain ⟨e1, e2, r', hrest, he1ne, he2ne, he1, he2, hg', -⟩ :=
        tryMatch_shape _ _ _ hm
      have hQ'len : g' = (e1 ++ arrowSep ++ e2).length + 1 := by
        simp only [List.length_append]
        have h5 : arrowSep.length = 5 := rfl
        omega
      have htake : rest.take g' = (e1 ++ arrowSep ++ e2) ++ ['\n'] := by
        rw [hrest]
        exact take_group _ _ _ hQ'len
      have hPflat : c :: goC p1 (some c) 0 cs =
          (c :: u) ++ ((e1 ++ arrowSep ++ e2) ++ '\n' :: T) := by
        rw [hI, htake]
        simp [List.append_assoc]
      have heq : (c :: u) ++ ((e1 ++ arrowSep ++ e2) ++ '\n' :: T) =
          (D1 ++ arrowSep ++ D2) ++ '\n' :: '\n' :: R := by
        rw [← hPflat, hP]
      have hQnl : ∀ x ∈ D1 ++ arrowSep ++ D2, x ≠ '\n' := by
        intro x hx
        rcases List.mem_append.mp hx with h | h
        · rcases List.mem_append.mp h with h' | h'
          · exact tsChar_ne_nl (hD1 x h')
          · exact arrowSep_no_nl x h'
        · exact tsChar_ne_nl (hD2 x h)
      have hWnl : ∀ x ∈ e1 ++ arrowSep ++ e2, x ≠ '\n' := by
        intro x hx
        rcases List.mem_append.mp hx with h | h
        · rcases List.mem_append.mp h with h' | h'
          · exact tsChar_ne_nl (he1 x h')
          · exact arrowSep_no_nl x h'
        · exact tsChar_ne_nl (he2 x h)
      have hWne : (e1 ++ arrowSep ++ e2) ≠ [] := by
        intro h
        obtain ⟨h1, -⟩ := List.append_eq_nil.mp h
        obtain ⟨h2, -⟩ := List.append_eq_nil.mp h1
        exact he1ne h2
      have hq1 : ((c :: u) ++ ((e1 ++ arrowSep ++ e2) ++
          '\n' :: T))[(D1 ++ arrowSep ++ D2).length]? = some '\n' := by
        rw [heq, List.getElem?_append_right (le_refl _)]
        simp
      have hq2 : ((c :: u) ++ ((e1 ++ arrowSep ++ e2) ++
          '\n' :: T))[(D1 ++ arrowSep ++ D2).length + 1]? = some '\n' := by
        rw [heq, List.getElem?_append_right (Nat.le_succ _)]
        have h1 : (D1 ++ arrowSep ++ D2).length + 1 -
            (D1 ++ arrowSep ++ D2).length = 1 := by omega
        rw [h1]
        simp
      have hQmem : ∀ i < (D1 ++ arrowSep ++ D2).length, ∀ x,
          ((c :: u) ++ ((e1 ++ arrowSep ++ e2) ++ '\n' :: T))[i]? =
            some x → x ≠ '\n' := by
        intro i hi x hx
        rw [heq, List.getElem?_append_left hi] at hx
        exact hQnl x (List.getElem?_mem hx)
      have hj : ((c :: u) ++ ((e1 ++ arrowSep ++ e2) ++
          '\n' :: T))[(c :: u).length + (e1 ++ arrowSep ++ e2).length]? =
          some '\n' := by
        rw [List.getElem?_append_right (by omega : (c :: u).length ≤
          (c :: u).length + (e1 ++ arrowSep ++ e2).length)]
        have h1 : (c :: u).length + (e1 ++ arrowSep ++ e2).length -
            (c :: u).length = (e1 ++ arrowSep ++ e2).length := by omega
        rw [h1, List.getElem?_append_right (le_refl _)]
        simp
      have hWmem : ∀ i, (c :: u).length ≤ i →
          i < (c :: u).length + (e1 ++ arrowSep ++ e2).length → ∀ x,
          ((c :: u) ++ ((e1 ++ arrowSep ++ e2) ++ '\n' :: T))[i]? =
            some x → x ≠ '\n' := by
        intro i h1 h2 x hx
        rw [List.getElem?_append_right h1,
          List.getElem?_append_left (by omega)] at hx
        exact hWnl x (List.getElem?_mem hx)
      have hT' : ∀ x,
          ((c :: u) ++ ((e1 ++ arrowSep ++ e2) ++
            '\n' :: T))[(c :: u).length + (e1 ++ arrowSep ++ e2).length + 1]? =
            some x → x ≠ '\n' := by
        intro x hx hxe
        rw [List.getElem?_append_right (by omega)] at hx
        have h1 : (c :: u).length + (e1 ++ arrowSep ++ e2).length + 1 -
            (c :: u).length = (e1 ++ arrowSep ++ e2).length + 1 := by omega
        rw [h1, List.getElem?_append_right (Nat.le_succ _)] at hx
        have h2 : (e1 ++ arrowSep ++ e2).length + 1 -
            (e1 ++ arrowSep ++ e2).length = 1 := by omega
        rw [h2] at hx
        have h3 : ('\n' :: T)[1]? = T[0]? := by simp
        rw [h3, ← List.head?_eq_getElem?, hThead] at hx
        rw [hxe] at hx
        exact hTnl hx
      rcases Nat.lt_or_ge (D1 ++ arrowSep ++ D2).length (c :: u).length
        with hlt | hge
      · rcases Nat.lt_or_ge ((D1 ++ arrowSep ++ D2).length + 1)
          (c :: u).length with hlt2 | hge2
        · have hpre1 : ((D1 ++ arrowSep ++ D2) ++ ['\n', '\n']) <+:
              ((c :: u) ++ ((e1 ++ arrowSep ++ e2) ++ '\n' :: T)) := by
            rw [heq]
            exact ⟨R, by simp [List.append_assoc]⟩
          have hpre2 : (c :: u) <+:
              ((c :: u) ++ ((e1 ++ arrowSep ++ e2) ++ '\n' :: T)) := ⟨_, rfl⟩
          have hlen12 : ((D1 ++ arrowSep ++ D2) ++ ['\n', '\n']).length ≤
              (c :: u).length := by
            simp only [List.length_append, List.length_cons,
              List.length_nil] at hlt2 ⊢
            omega
          have hpre3 := List.prefix_of_prefix_length_le hpre1 hpre2 hlen12
          have hpre4 : (c :: u) <+: (c :: cs) := ⟨rest, by rw [hcs]; rfl⟩
          obtain ⟨tail, htail⟩ := hpre3.trans hpre4
          have hccs : c :: cs =
              (D1 ++ arrowSep ++ D2) ++ '\n' :: '\n' :: tail := by
            rw [← htail]
            simp [List.append_assoc]
          have hsome := tryMatch_of_shape D1 D2 tail hD1ne hD2ne hD1 hD2
          rw [← hccs, hM] at hsome
          exact Option.noConfusion hsome
        · have hWpos : 0 < (e1 ++ arrowSep ++ e2).length :=
            List.length_pos.mpr hWne
          exact hWmem ((D1 ++ arrowSep ++ D2).length + 1) (by omega)
            (by omega) '\n' hq2 rfl
      · rcases Nat.lt_or_ge (D1 ++ arrowSep ++ D2).length
          ((c :: u).length + (e1 ++ arrowSep ++ e2).length) with hltj | hgej
        · exact hWmem (D1 ++ arrowSep ++ D2).length hge hltj '\n' hq1 rfl
        · rcases Nat.eq_or_lt_of_le hgej with heqj | hgtj
          · exact hT' '\n' (by rw [heqj]; exact hq2) rfl
          · exact hQmem ((c :: u).length + (e1 ++ arrowSep ++ e2).length)
              hgtj '\n' hj rfl

/-- Helper: the lookbehind cannot fire when the second-to-last character
seen is not a newline. -/
theorem enabledCtx_left_ne (x : Char) (p1 : Option Char) (hx : x ≠ '\n') :
    enabledCtx (some x) p1 = false := by
  simp [enabledCtx, hx]

/-- Helper: on inputs passing `noProb`, a second scan leaves the output of
the first scan unchanged.  The disjunctive hypothesis relates the two
scanning contexts: they are equal, or the outer one cannot fire and the
inner one is reachable only behind a non-newline head. -/
theorem goC_idem_aux : ∀ (n : ℕ) (s : List Char) (p2 p1 q2 q1 : Option Char),
    s.length ≤ n →
    noProb p2 p1 0 s = true →
    ((p2 = q2 ∧ p1 = q1) ∨
      (enabledCtx q2 q1 = false ∧ (p1 = q1 ∨ s.head? ≠ some '\n'))) →
    goC q2 q1 0 (goC p2 p1 0 s) = goC p2 p1 0 s := by
  intro n
  induction n with
  | zero =>
    intro s p2 p1 q2 q1 hlen _ _
    have hnil : s = [] := List.eq_nil_of_length_eq_zero (Nat.le_zero.mp hlen)
    subst hnil
    rfl
  | succ n ih =>
    intro s p2 p1 q2 q1 hlen hnp hrel
    cases s with
    | nil => rfl
    | cons c cs =>
      have hlen' : cs.length ≤ n := by
        simp only [List.length_cons] at hlen
        omega
      by_cases hE1 : enabledCtx p2 p1 = true
      · cases hM : tryMatch (c :: cs) with
        | none =>
          rw [goC_cons_none p2 p1 c cs hM]
          have hnp' : noProb p1 (some c) 0 cs = true := by
            rw [noProb_cons_none p2 p1 c cs hM] at hnp
            exact hnp
          by_cases hE2 : enabledCtx q2 q1 = true
          · obtain ⟨hq2, hq1⟩ : p2 = q2 ∧ p1 = q1 := by
              rcases hrel with h | ⟨hfalse, -⟩
              · exact h
              · rw [hE2] at hfalse
                exact Bool.noConfusion hfalse
            have hhard := tryMatch_goC_none cs c p1 hM hnp'
            rw [goC_cons_none q2 q1 c _ hhard]
            subst hq1
            rw [ih cs p1 (some c) p1 (some c) hlen' hnp' (Or.inl ⟨rfl, rfl⟩)]
          · have hE2' : enabledCtx q2 q1 = false := by simpa using hE2
            rw [goC_cons_disabled q2 q1 c _ hE2']
            have hrel' : (p1 = q1 ∧ some c = some c) ∨
                (enabledCtx q1 (some c) = false ∧
                  (some c = some c ∨ cs.head? ≠ some '\n')) := by
              rcases hrel with ⟨-, hq1⟩ | ⟨-, hor⟩
              · exact Or.inl ⟨hq1, rfl⟩
              · rcases hor with hq1 | hhead
                · exact Or.inl ⟨hq1, rfl⟩
                · refine Or.inr ⟨?_, Or.inl rfl⟩
                  have hc : c ≠ '\n' := fun hcc => hhead (by rw [hcc]; rfl)
                  simp [enabledCtx, hc]
            rw [ih cs p1 (some c) q1 (some c) hlen' hnp' hrel']
        | some tg =>
          obtain ⟨t, g⟩ := tg
          obtain ⟨hg1, hgt, htlen⟩ := tryMatch_bounds _ _ _ hM
          obtain ⟨d1, d2, r, hs, hd1ne, hd2ne, hd1, hd2, hgval, htval⟩ :=
            tryMatch_shape _ _ _ hM
          obtain ⟨t', rfl⟩ : ∃ t', t = t' + 1 := ⟨t - 1, by omega⟩
          obtain ⟨hhead, hnpc⟩ :=
            (noProb_cons_match p2 p1 c cs (t' + 1) g hE1 hM).mp hnp
          rw [goC_cons_match p2 p1 c cs (t' + 1) g hE1 hM]
          simp only [Nat.add_sub_cancel]
          have hQlen : g = (d1 ++ arrowSep ++ d2).length + 1 := by
            simp only [List.length_append]
            have h5 : arrowSep.length = 5 := rfl
            omega
          have htake : (c :: cs).take g =
              (d1 ++ arrowSep ++ d2) ++ ['\n'] := by
            rw [hs]
            exact take_group _ _ _ hQlen
          rw [htake]
          rw [goC_skip cs p1 (some c) t']
          have hs2head : (cs.drop t').head? ≠ some '\n' := by
            rw [List.drop_succ_cons] at hhead
            exact hhead
          have hnp2 : noProb (ctxAfter (p1, some c) (cs.take t')).1
              (ctxAfter (p1, some c) (cs.take t')).2 0 (cs.drop t') = true := by
            rw [← noProb_skip]
            simpa only [Nat.add_sub_cancel] using hnpc
          have hKhead : (goC (ctxAfter (p1, some c) (cs.take t')).1
              (ctxAfter (p1, some c) (cs.take t')).2 0 (cs.drop t')).head? ≠
              some '\n' := by
            rw [head_goC]
            exact hs2head
          have hQnl : ∀ x ∈ d1 ++ arrowSep ++ d2, x ≠ '\n' := by
            intro x hx
            rcases List.mem_append.mp hx with h | h
            · rcases List.mem_append.mp h with h' | h'
              · exact tsChar_ne_nl (hd1 x h')
              · exact arrowSep_no_nl x h'
            · exact tsChar_ne_nl (hd2 x h)
          have hQne : (d1 ++ arrowSep ++ d2) ≠ [] := by
            intro h
            obtain ⟨h1, -⟩ := List.append_eq_nil.mp h
            obtain ⟨h2, -⟩ := List.append_eq_nil.mp h1
            exact hd1ne h2
          have hchain : chainOk q1 ((d1 ++ arrowSep ++ d2) ++ ['\n']) = true :=
            chainOk_snoc _ '\n' q1 hQnl hQne
          have hpos0 : enabledCtx q2 q1 = true →
              tryMatch (((d1 ++ arrowSep ++ d2) ++ ['\n']) ++
                goC (ctxAfter (p1, some c) (cs.take t')).1
                  (ctxAfter (p1, some c) (cs.take t')).2 0 (cs.drop t')) =
                none ∨ ((d1 ++ arrowSep ++ d2) ++ ['\n']) = [] := by
            intro _
            left
            have hflat2 : ((d1 ++ arrowSep ++ d2) ++ ['\n']) ++
                goC (ctxAfter (p1, some c) (cs.take t')).1
                  (ctxAfter (p1, some c) (cs.take t')).2 0 (cs.drop t') =
                d1 ++ arrowSep ++ d2 ++ '\n' ::
                  goC (ctxAfter (p1, some c) (cs.take t')).1
                    (ctxAfter (p1, some c) (cs.take t')).2 0 (cs.drop t') := by
              simp [List.append_assoc]
            rw [hflat2]
            refine tryMatch_none_single_nl d1 d2 _ hd1ne hd2ne hd1 hd2 ?_
            intro x hxx hxe
            rw [hxe] at hxx
            exact hKhead hxx
          rw [goC_through ((d1 ++ arrowSep ++ d2) ++ ['\n']) q2 q1 _
            hchain hpos0]
          have hsplit : (d1 ++ arrowSep ++ d2) ++ ['\n'] =
              (d1 ++ arrowSep ++ d2).dropLast ++
                [(d1 ++ arrowSep ++ d2).getLast hQne, '\n'] := by
            conv_lhs => rw [← List.dropLast_append_getLast hQne]
            simp [List.append_assoc]
          have hctxG : ctxAfter (q2, q1) ((d1 ++ arrowSep ++ d2) ++ ['\n']) =
              (some ((d1 ++ arrowSep ++ d2).getLast hQne), some '\n') := by
            rw [hsplit, ctxAfter_pair]
          have hxlast := hQnl _ (List.getLast_mem hQne)
          have hen : enabledCtx
              (ctxAfter (q2, q1) ((d1 ++ arrowSep ++ d2) ++ ['\n'])).1
              (ctxAfter (q2, q1) ((d1 ++ arrowSep ++ d2) ++ ['\n'])).2 =
              false := by
            rw [hctxG]
            exact enabledCtx_left_ne _ _ hxlast
          have hlen2 : (cs.drop t').length ≤ n := by
            rw [List.length_drop]
            omega
          rw [ih (cs.drop t') (ctxAfter (p1, some c) (cs.take t')).1
            (ctxAfter (p1, some c) (cs.take t')).2
            (ctxAfter (q2, q1) ((d1 ++ arrowSep ++ d2) ++ ['\n'])).1
            (ctxAfter (q2, q1) ((d1 ++ arrowSep ++ d2) ++ ['\n'])).2
            hlen2 hnp2 (Or.inr ⟨hen, Or.inr hs2head⟩)]
      · have hE1' : enabledCtx p2 p1 = false := by simpa using hE1
        rw [goC_cons_disabled p2 p1 c cs hE1']
        have hnp' : noProb p1 (some c) 0 cs = true := by
          rw [noProb_cons_disabled p2 p1 c cs hE1'] at hnp
          exact hnp
        by_cases hE2 : enabledCtx q2 q1 = true
        · rcases hrel with ⟨hq2, hq1⟩ | ⟨hfalse, -⟩
          · rw [← hq2, ← hq1, hE1'] at hE2
            exact Bool.noConfusion hE2
          · rw [hE2] at hfalse
            exact Bool.noConfusion hfalse
        · have hE2' : enabledCtx q2 q1 = false := by simpa using hE2
          rw [goC_cons_disabled q2 q1 c _ hE2']
          have hrel' : (p1 = q1 ∧ some c = some c) ∨
              (enabledCtx q1 (some c) = false ∧
                (some c = some c ∨ cs.head? ≠ some '\n')) := by
            rcases hrel with ⟨-, hq1⟩ | ⟨-, hor⟩
            · exact Or.inl ⟨hq1, rfl⟩
            · rcases hor with hq1 | hhead
              · exact Or.inl ⟨hq1, rfl⟩
              · refine Or.inr ⟨?_, Or.inl rfl⟩
                have hc : c ≠ '\n' := fun hcc => hhead (by rw [hcc]; rfl)
                simp [enabledCtx, hc]
          rw [ih cs p1 (some c) q1 (some c) hlen' hnp' hrel']

/-- C8 is refuted as stated: the blank-line repair is not idempotent on
every input.  On the text `"\n\n0 --> 0\n\n\nx"` the first pass collapses
the broken blank line after the timestamp line, which leaves a fresh
blank line right behind the timestamp line, and a second pass collapses
that one too: applying the repair twice differs from applying it once. -/
theorem c8_counterexample :
    collapseStr (collapseStr ("\n\n0 --> 0\n\n\nx")) ≠
      collapseStr ("\n\n0 --> 0\n\n\nx") := by decide

/-- C8 (amended): on every subtitle text in which no collapsed blank-line
group is immediately followed by a further newline (the `noProblem`
check), the repair is idempotent: applying the blank-line collapse twice
yields the same result as applying it once. -/
theorem c8_amended (s : String) (h : noProblem s.data = true) :
    collapseStr (collapseStr s) = collapseStr s := by
  have hmain := goC_idem_aux s.data.length s.data none none none none
    (le_refl _) h (Or.inl ⟨rfl, rfl⟩)
  show String.mk (collapse (collapse s.data)) = String.mk (collapse s.data)
  exact congrArg String.mk hmain

/-- C8 witness: a concrete text passing the `noProblem` check (and
actually modified by the repair) on which idempotence holds. -/
theorem c8_amended_witness :
    noProblem (("\n\n0 --> 0\n\nx" : String).data) = true ∧
      collapseStr (collapseStr ("\n\n0 --> 0\n\nx")) =
        collapseStr ("\n\n0 --> 0\n\nx") :=
  ⟨by decide, c8_amended ("\n\n0 --> 0\n\nx") (by decide)⟩

end YDS
